import Mathlib

/-!
# binarysearch.c: generic binary search over raw memory

(The embedding of `pointers_unions.c` follows the definitions of this part.)

A shallow embedding of `int_cmp` and `binary_search` from `binarysearch.c`.

* Addresses (`const void *`) are natural numbers.
* `int` is a 32-bit two's complement integer: every `int` addition and
  subtraction is reduced by `wrapInt`.
* `size_t` is a 64-bit unsigned integer: every `size_t` operation is reduced
  by `wrapSize`.
* A comparator `int (*cmp)(const void *, const void *)` is a function of the two
  addresses it is handed.  What the comparator reads behind the addresses is
  part of the comparator (for `int_cmp`, a memory of `int` cells).
* A byte offset is added to a base address as natural numbers.
* The loop of `binary_search` is run on fuel, one unit per evaluation of the
  loop condition; a run that is cut short is reported as `out_of_fuel`, and a
  run that has returned is the same with any greater amount of fuel
  (`binary_search_fuel_mono`).
* Besides the value returned, a run records the indices probed and the bounds
  at each evaluation of the loop condition.
-/

namespace BinarySearch

/-! ## Machine integers -/

/-- Largest value of the C type `int`. -/
def INT_MAX : Int := 2147483647

/-- Smallest value of the C type `int`. -/
def INT_MIN : Int := -2147483648

/-- Number of values of the C type `size_t`. -/
def SIZE_MOD : Nat := 18446744073709551616

/-- Reduction of a mathematical integer to the C type `int` (two's complement,
32 bits): the result of an `int` operation, or of a conversion to `int`. -/
def wrapInt (x : Int) : Int := (x + 2147483648) % 4294967296 - 2147483648

/-- Reduction of a mathematical integer to the C type `size_t` (64 bits,
unsigned): the result of a `size_t` operation, or of a conversion to `size_t`. -/
def wrapSize (x : Int) : Nat := (x % 18446744073709551616).toNat

/-- The value lies in the range of the C type `int`. -/
def InIntRange (x : Int) : Prop := INT_MIN ≤ x ∧ x ≤ INT_MAX

/-! ## The integer comparator -/

/-- The function `int_cmp`: `mem` gives the `int` stored at each address, `a`
and `b` are the two pointers.
```c
int aa = *(int *)a, bb = *(int *)b;
if (aa > bb) { return 1; }
if (aa < bb) { return -1; }
return 0;
``` -/
def int_cmp (mem : Nat → Int) (a b : Nat) : Int :=
  let aa := mem a
  let bb := mem b
  if aa > bb then 1
  else if aa < bb then -1
  else 0

/-! ## The search -/

/-- What a call of `binary_search` comes to: a pointer to an element, `NULL`,
or (in the embedding only) a loop that is still running when the fuel is
used up. -/
inductive Outcome where
  | found (ptr : Nat)
  | not_found
  | out_of_fuel
  deriving DecidableEq, Repr

/-- The observable history of one call of `binary_search`. -/
structure Trace where
  /-- The value returned. -/
  result : Outcome
  /-- The values of `mid`, in order, at which the comparator was invoked. -/
  probes : List Int
  /-- The values of `(low, high)` at each evaluation of the loop condition. -/
  bounds : List (Int × Int)
  deriving DecidableEq, Repr

/-- Record one more loop iteration in front of the history of the rest of the run. -/
def Trace.step (mid : Int) (lh : Int × Int) (t : Trace) : Trace :=
  { result := t.result, probes := mid :: t.probes, bounds := lh :: t.bounds }

/-- The midpoint `low + (high - low) / 2` in `int` arithmetic (C division
truncates towards zero). -/
def midpoint (low high : Int) : Int :=
  wrapInt (low + (wrapInt (high - low)).tdiv 2)

/-- The element pointer `base_ptr + mid * elem_sz`: `mid` is converted to
`size_t`, the product is a `size_t` product, and the byte offset is added to
the base address. -/
def elem_ptr (base_ptr : Nat) (mid : Int) (elem_sz : Nat) : Nat :=
  base_ptr + wrapSize ((wrapSize mid : Int) * (elem_sz : Int))

/-- The loop `while (low <= high) { ... }` of `binary_search`, started with the
given `low` and `high`.  One unit of fuel is spent on each evaluation of the
loop condition.
```c
while (low <= high) {
    int mid = low + (high - low) / 2;
    const void *ptr = base_ptr + mid * elem_sz;
    int result = cmp(key, ptr);
    if (result == 0) { return (void *)ptr; }
    if (result > 0) { low = mid + 1; } else { high = mid - 1; }
}
return NULL;
``` -/
def search_loop (cmp : Nat → Nat → Int) (key base_ptr elem_sz : Nat) :
    Nat → Int → Int → Trace
  | 0, _, _ => { result := .out_of_fuel, probes := [], bounds := [] }
  | fuel + 1, low, high =>
    if low ≤ high then
      let mid := midpoint low high
      let ptr := elem_ptr base_ptr mid elem_sz
      let result := cmp key ptr
      if result = 0 then
        { result := .found ptr, probes := [mid], bounds := [(low, high)] }
      else if result > 0 then
        (search_loop cmp key base_ptr elem_sz fuel (wrapInt (mid + 1)) high).step mid (low, high)
      else
        (search_loop cmp key base_ptr elem_sz fuel low (wrapInt (mid - 1))).step mid (low, high)
    else
      { result := .not_found, probes := [], bounds := [(low, high)] }

/-- The function `binary_search`.
```c
int low = 0, high = num_elems - 1;
const char *base_ptr = values;
while (low <= high) { ... }
return NULL;
```
`num_elems - 1` is a `size_t` difference, converted to `int` to initialise
`high`. -/
def binary_search (fuel : Nat) (cmp : Nat → Nat → Int)
    (key values num_elems elem_sz : Nat) : Trace :=
  let low : Int := 0
  let high : Int := wrapInt (wrapSize ((num_elems : Int) - 1))
  let base_ptr := values
  search_loop cmp key base_ptr elem_sz fuel low high

/-! ## The demonstration in `main` -/

/-- A memory of `int` cells holding the list `xs` from address `base` on, one
cell every `4` bytes (`sizeof(int)`); `none` outside the list. -/
def int_array (base : Nat) (xs : List Int) (a : Nat) : Option Int :=
  if base ≤ a ∧ (a - base) % 4 = 0 then xs.get? ((a - base) / 4) else none

/-- Address of `array` in the stack frame of `main`. -/
def array_addr : Nat := 4096

/-- Address of `keys` in the stack frame of `main`. -/
def keys_addr : Nat := 8192

/-- A stack frame holding an `int` array `array` at `array_addr` and an `int`
array `keys` at `keys_addr`; every other cell holds `0`. -/
def stack_mem (array keys : List Int) (a : Nat) : Int :=
  match int_array array_addr array a with
  | some v => v
  | none =>
    match int_array keys_addr keys a with
    | some v => v
    | none => 0

/-- The stack frame of `main`: `array = { 1, 4, 7, 18, 90 }` and
`keys = { 1, 5, 7, 19, 90 }`. -/
def main_mem : Nat → Int := stack_mem [1, 4, 7, 18, 90] [1, 5, 7, 19, 90]

/-- The call `binary_search(keys + i, array, num_elems, sizeof(int), int_cmp)`
of `main`, with `num_elems = sizeof(array)/sizeof(int) = 5`. -/
def main_search (fuel i : Nat) : Trace :=
  binary_search fuel (int_cmp main_mem) (keys_addr + 4 * i) array_addr 5 4

/-! ## Memories and comparators of the examples -/

/-- A key (`1`, stored at address `0`) above every element of an array of zeros. -/
def zeros_mem (a : Nat) : Int := if a = 0 then 1 else 0

/-- A stack frame with the array `{ 7, 7, 7 }` and the key `7`. -/
def dup_mem : Nat → Int := stack_mem [7, 7, 7] [7]

/-- A memory of `int` cells in which the list `xs` is embedded in elements of
`stride` bytes stored from `base` on, each key at offset `off` inside its
element, and in which the cell at `key_addr` holds `k`; every other cell
holds `0`. -/
def strided_mem (base stride off : Nat) (xs : List Int) (key_addr : Nat) (k : Int)
    (a : Nat) : Int :=
  if a = key_addr then k
  else if base + off ≤ a ∧ (a - (base + off)) % stride = 0 then
    (xs.get? ((a - (base + off)) / stride)).getD 0
  else 0

/-- A comparator for elements that embed their `int` key at offset `off`: the
key pointer is read as is, the element pointer at offset `off`. -/
def field_cmp (mem : Nat → Int) (off : Nat) (a b : Nat) : Int :=
  int_cmp mem a (b + off)

/-- A memory of zeros, but for the key `1` stored at address `2^64 - 2^33 + 4096`. -/
def high_key_mem (a : Nat) : Int := if a = 18446744065119621120 then 1 else 0

/-- The midpoint `(low + high) / 2` in `int` arithmetic, which the code avoids. -/
def naive_midpoint (low high : Int) : Int :=
  (wrapInt (low + high)).tdiv 2

/-- A stack frame with the unsorted array `{ 9, 1, 2 }` and the key `9`. -/
def unsorted_mem : Nat → Int := stack_mem [9, 1, 2] [9]

/-! ## Specification vocabulary -/

/-- The accessor of the specification: the address of the element with
logical index `i` in a sequence stored from `values` on with stride `elem_sz`. -/
def elem_addr (values i elem_sz : Nat) : Nat := values + i * elem_sz

/-- The comparator contract on the addresses satisfying `D`: the verdict is
antisymmetric, "greater" is transitive and "equal" is transitive. -/
structure Contract (cmp : Nat → Nat → Int) (D : Nat → Prop) : Prop where
  antisymm : ∀ a b, D a → D b → (0 < cmp a b ↔ cmp b a < 0)
  trans_gt : ∀ a b c, D a → D b → D c → 0 < cmp a b → 0 < cmp b c → 0 < cmp a c
  trans_eq : ∀ a b c, D a → D b → D c → cmp a b = 0 → cmp b c = 0 → cmp a c = 0

/-- The sequence of `num_elems` elements stored from `values` on with stride
`elem_sz` is sorted ascending per `cmp`: no element follows a later one. -/
def SortedPer (cmp : Nat → Nat → Int) (values num_elems elem_sz : Nat) : Prop :=
  ∀ i j, i ≤ j → j < num_elems →
    cmp (elem_addr values i elem_sz) (elem_addr values j elem_sz) ≤ 0

/-- The key occurs in the sequence: some element compares equal to it. -/
def Occurs (cmp : Nat → Nat → Int) (key values num_elems elem_sz : Nat) : Prop :=
  ∃ i, i < num_elems ∧ cmp key (elem_addr values i elem_sz) = 0

/-! ## The algorithm of the specification -/

/-- The iterative halving of the specification, over unbounded integers and
with the accessor `base + index * element_size`: while `low <= high`, compute
`mid = low + (high - low) / 2` and the candidate reference, invoke the
comparator, return the candidate on "equal", set `low = mid + 1` on "greater"
and `high = mid - 1` on "less"; return nothing when the range is exhausted.
The history is recorded as for `search_loop`. -/
def spec_search_loop (compare : Nat → Nat → Int) (key base element_size : Nat) :
    Nat → Int → Int → Trace
  | 0, _, _ => { result := .out_of_fuel, probes := [], bounds := [] }
  | fuel + 1, low, high =>
    if low ≤ high then
      let mid := low + (high - low) / 2
      let candidate := elem_addr base mid.toNat element_size
      let verdict := compare key candidate
      if verdict = 0 then
        { result := .found candidate, probes := [mid], bounds := [(low, high)] }
      else if verdict > 0 then
        (spec_search_loop compare key base element_size fuel (mid + 1) high).step mid (low, high)
      else
        (spec_search_loop compare key base element_size fuel low (mid - 1)).step mid (low, high)
    else
      { result := .not_found, probes := [], bounds := [(low, high)] }

/-- The operation `search` of the specification: `low = 0`,
`high = num_elems - 1`, then the iterative halving. -/
def spec_search (fuel : Nat) (compare : Nat → Nat → Int)
    (key base num_elems element_size : Nat) : Trace :=
  spec_search_loop compare key base element_size fuel 0 ((num_elems : Int) - 1)

end BinarySearch

/-!
# pointers_unions.c: printing an array by pointer and by index

A shallow embedding of `print_array_pt` and `print_array`.  An `int *` is a
64-bit address of a cell of a memory of `int` cells, `sizeof(int) = 4` bytes
apart; pointer arithmetic is reduced modulo `2^64` (`ptr_add`) and pointers
are compared as unsigned addresses.  Each function returns the text it has
written to `stdout` and whether it has returned or was cut short by the fuel.
-/

namespace PointersUnions

open BinarySearch (wrapInt wrapSize INT_MAX SIZE_MOD)

/-- The pointer `p + k` for an `int *p` and an integer `k`: the address `p`
moved by `k` cells of `sizeof(int) = 4` bytes, as a 64-bit address. -/
def ptr_add (p : Nat) (k : Int) : Nat := wrapSize ((p : Int) + 4 * k)

/-- What a print function has done: the text written to `stdout`, and whether
the function has returned (`false`: the fuel ran out in its loop). -/
structure Output where
  text : String
  returned : Bool
  deriving DecidableEq, Repr

/-- The loop of `print_array_pt`, with the text written so far in `out`.
```c
for (int *end = array + num_elements - 1; array < end; ) {
    printf(", %d", *array++);
}
``` -/
def print_array_pt_loop (mem : Nat → Int) : Nat → Nat → Nat → String → Output
  | 0, _, _, out => { text := out, returned := false }
  | fuel + 1, array, end_ptr, out =>
    if array < end_ptr then
      print_array_pt_loop mem fuel (ptr_add array 1) end_ptr
        (out ++ ", " ++ toString (mem array))
    else { text := out, returned := true }

/-- The function `print_array_pt`.
```c
putc('[', stdout);
if (num_elements >= 1) {
    printf("%d", *array++);
}
for (int *end = array + num_elements - 1; array < end; ) { ... }
putc(']', stdout);
printf("\n");
``` -/
def print_array_pt (fuel : Nat) (mem : Nat → Int) (array : Nat) (num_elements : Int) :
    Output :=
  let out := "["
  let first := num_elements ≥ 1
  let out := if first then out ++ toString (mem array) else out
  let array := if first then ptr_add array 1 else array
  let end_ptr := ptr_add (ptr_add array num_elements) (-1)
  let r := print_array_pt_loop mem fuel array end_ptr out
  if r.returned then { text := r.text ++ "]" ++ "\n", returned := true } else r

/-- The loop of `print_array`, with the text written so far in `out`.
```c
for (int i = 1; i < num_elements; i++) {
    printf(", %d", array[i]);
}
``` -/
def print_array_loop (mem : Nat → Int) (array : Nat) (num_elements : Int) :
    Nat → Int → String → Output
  | 0, _, out => { text := out, returned := false }
  | fuel + 1, i, out =>
    if i < num_elements then
      print_array_loop mem array num_elements fuel (wrapInt (i + 1))
        (out ++ ", " ++ toString (mem (ptr_add array i)))
    else { text := out, returned := true }

/-- The function `print_array`.
```c
putc('[', stdout);
if (num_elements >= 1) {
    printf("%d", array[0]);
}
for (int i = 1; i < num_elements; i++) { ... }
putc(']', stdout);
printf("\n");
``` -/
def print_array (fuel : Nat) (mem : Nat → Int) (array : Nat) (num_elements : Int) :
    Output :=
  let out := "["
  let out := if num_elements ≥ 1 then out ++ toString (mem (ptr_add array 0)) else out
  let r := print_array_loop mem array num_elements fuel 1 out
  if r.returned then { text := r.text ++ "]" ++ "\n", returned := true } else r

/-- The text `[e0, e1, ...]` and a newline, for the first `num_elements`
elements of the array at `array`, in index order, as decimals separated by
`", "`. -/
def array_text (mem : Nat → Int) (array : Nat) (num_elements : Int) : String :=
  "[" ++ ", ".intercalate
    ((List.range num_elements.toNat).map (fun i => toString (mem (array + 4 * i)))) ++
    "]" ++ "\n"

/-- The memory of `main` after `for (int i = 0; i < 10; i++) array[i] = i;`,
with `array` at address `4096`. -/
def main_array_mem (a : Nat) : Int :=
  match BinarySearch.int_array 4096 [0, 1, 2, 3, 4, 5, 6, 7, 8, 9] a with
  | some v => v
  | none => 0

end PointersUnions

namespace BinarySearch

/-! ## Machine arithmetic lemmas -/

theorem wrapInt_of_inRange {x : Int} (h1 : -2147483648 ≤ x) (h2 : x ≤ 2147483647) :
    wrapInt x = x := by
  unfold wrapInt; omega

theorem wrapInt_range (x : Int) : -2147483648 ≤ wrapInt x ∧ wrapInt x ≤ 2147483647 := by
  unfold wrapInt; omega

theorem midpoint_spec {low high : Int} (h0 : 0 ≤ low) (h1 : low ≤ high)
    (h2 : high ≤ 2147483647) :
    midpoint low high = (low + high) / 2 ∧ low ≤ midpoint low high ∧
      midpoint low high ≤ high := by
  have hw : wrapInt (high - low) = high - low := wrapInt_of_inRange (by omega) (by omega)
  have ht : (high - low).tdiv 2 = (high - low) / 2 :=
    Int.tdiv_eq_ediv (by omega) (by decide)
  have hm : midpoint low high = low + (high - low) / 2 := by
    unfold midpoint
    rw [hw, ht]
    exact wrapInt_of_inRange (by omega) (by omega)
  rw [hm]
  omega

/-- The initial `high` never exceeds `num_elems - 1`. -/
theorem init_high_le (n : Nat) : wrapInt (wrapSize ((n : Int) - 1)) ≤ (n : Int) - 1 := by
  unfold wrapInt wrapSize; omega

/-- When `num_elems` fits in `int`, the initial `high` is `num_elems - 1`. -/
theorem init_high_eq {n : Nat} (h : (n : Int) ≤ 2147483647) :
    wrapInt (wrapSize ((n : Int) - 1)) = (n : Int) - 1 := by
  unfold wrapInt wrapSize; omega

/-- Inside an array that fits in the address space, the pointer computed by
the code is the address of the element with that index. -/
theorem elem_ptr_eq_addr {base sz n : Nat} {mid : Int} (h0 : 0 ≤ mid) (h1 : mid < n)
    (hfit : n * sz < 18446744073709551616) :
    elem_ptr base mid sz = elem_addr base mid.toNat sz := by
  obtain ⟨k, rfl⟩ := Int.eq_ofNat_of_zero_le h0
  have hk : k < n := by exact_mod_cast h1
  have hks : k * sz < 18446744073709551616 :=
    lt_of_le_of_lt (Nat.mul_le_mul_right sz (le_of_lt hk)) hfit
  unfold elem_ptr elem_addr wrapSize
  rcases Nat.eq_zero_or_pos sz with h | h
  · subst h
    simp
  · have hk64 : k < 18446744073709551616 :=
      lt_of_le_of_lt (Nat.le_mul_of_pos_right k h) hks
    have e1 : ((k : Int) % 18446744073709551616).toNat = k := by omega
    have e2 : (((k * sz : Nat) : Int) % 18446744073709551616).toNat = k * sz := by omega
    rw [e1, Int.toNat_ofNat, ← Int.ofNat_mul, e2]

/-! ## One iteration of the loop -/

section Loop

variable (cmp : Nat → Nat → Int) (key base sz : Nat)

theorem search_loop_exit (fuel : Nat) {low high : Int} (h : ¬ low ≤ high) :
    search_loop cmp key base sz (fuel + 1) low high =
      { result := .not_found, probes := [], bounds := [(low, high)] } := by
  simp only [search_loop, if_neg h]

theorem search_loop_hit (fuel : Nat) {low high : Int} (h : low ≤ high)
    (hc : cmp key (elem_ptr base (midpoint low high) sz) = 0) :
    search_loop cmp key base sz (fuel + 1) low high =
      { result := .found (elem_ptr base (midpoint low high) sz),
        probes := [midpoint low high], bounds := [(low, high)] } := by
  simp only [search_loop, if_pos h, if_pos hc]

theorem search_loop_right (fuel : Nat) {low high : Int} (h : low ≤ high)
    (hc : 0 < cmp key (elem_ptr base (midpoint low high) sz)) :
    search_loop cmp key base sz (fuel + 1) low high =
      (search_loop cmp key base sz fuel (wrapInt (midpoint low high + 1)) high).step
        (midpoint low high) (low, high) := by
  have hne : ¬ cmp key (elem_ptr base (midpoint low high) sz) = 0 := by omega
  have hgt : cmp key (elem_ptr base (midpoint low high) sz) > 0 := hc
  simp only [search_loop, if_pos h, if_neg hne, if_pos hgt]

theorem search_loop_left (fuel : Nat) {low high : Int} (h : low ≤ high)
    (hc : cmp key (elem_ptr base (midpoint low high) sz) < 0) :
    search_loop cmp key base sz (fuel + 1) low high =
      (search_loop cmp key base sz fuel low (wrapInt (midpoint low high - 1))).step
        (midpoint low high) (low, high) := by
  have hne : ¬ cmp key (elem_ptr base (midpoint low high) sz) = 0 := by omega
  have hgt : ¬ cmp key (elem_ptr base (midpoint low high) sz) > 0 := by omega
  simp only [search_loop, if_pos h, if_neg hne, if_neg hgt]

/-- Every run of the loop is of one of five shapes. -/
theorem search_loop_cases (fuel : Nat) (low high : Int) :
    (fuel = 0 ∧ search_loop cmp key base sz fuel low high =
        { result := .out_of_fuel, probes := [], bounds := [] }) ∨
    (¬ low ≤ high ∧ search_loop cmp key base sz fuel low high =
        { result := .not_found, probes := [], bounds := [(low, high)] }) ∨
    (low ≤ high ∧ cmp key (elem_ptr base (midpoint low high) sz) = 0 ∧
      search_loop cmp key base sz fuel low high =
        { result := .found (elem_ptr base (midpoint low high) sz),
          probes := [midpoint low high], bounds := [(low, high)] }) ∨
    (∃ f, fuel = f + 1 ∧ low ≤ high ∧ 0 < cmp key (elem_ptr base (midpoint low high) sz) ∧
      search_loop cmp key base sz fuel low high =
        (search_loop cmp key base sz f (wrapInt (midpoint low high + 1)) high).step
          (midpoint low high) (low, high)) ∨
    (∃ f, fuel = f + 1 ∧ low ≤ high ∧ cmp key (elem_ptr base (midpoint low high) sz) < 0 ∧
      search_loop cmp key base sz fuel low high =
        (search_loop cmp key base sz f low (wrapInt (midpoint low high - 1))).step
          (midpoint low high) (low, high)) := by
  cases fuel with
  | zero => exact Or.inl ⟨rfl, rfl⟩
  | succ f =>
    by_cases h : low ≤ high
    · rcases lt_trichotomy (cmp key (elem_ptr base (midpoint low high) sz)) 0 with hc | hc | hc
      · exact Or.inr (Or.inr (Or.inr (Or.inr
          ⟨f, rfl, h, hc, search_loop_left cmp key base sz f h hc⟩)))
      · exact Or.inr (Or.inr (Or.inl ⟨h, hc, search_loop_hit cmp key base sz f h hc⟩))
      · exact Or.inr (Or.inr (Or.inr (Or.inl
          ⟨f, rfl, h, hc, search_loop_right cmp key base sz f h hc⟩)))
    · exact Or.inr (Or.inl ⟨h, search_loop_exit cmp key base sz f h⟩)

/-- A pointer returned by the loop is the pointer computed at the last probe,
the comparator returned `0` there, and at no earlier probe. -/
theorem search_loop_found : ∀ (fuel : Nat) (low high : Int) (p : Nat),
    (search_loop cmp key base sz fuel low high).result = .found p →
    ∃ init m, (search_loop cmp key base sz fuel low high).probes = init ++ [m] ∧
      p = elem_ptr base m sz ∧ cmp key (elem_ptr base m sz) = 0 ∧
      ∀ m' ∈ init, cmp key (elem_ptr base m' sz) ≠ 0 := by
  intro fuel
  induction fuel with
  | zero => intro low high p h; simp [search_loop] at h
  | succ f ih =>
    intro low high p h
    rcases search_loop_cases cmp key base sz (f + 1) low high with
      ⟨h0, _⟩ | ⟨_, e⟩ | ⟨_, hc, e⟩ | ⟨f', hf, _, hc, e⟩ | ⟨f', hf, _, hc, e⟩
    · omega
    · rw [e] at h; simp at h
    · rw [e] at h ⊢
      simp only [Outcome.found.injEq] at h
      exact ⟨[], midpoint low high, rfl, h.symm, hc, by simp⟩
    · obtain rfl : f' = f := by omega
      rw [e] at h ⊢
      obtain ⟨init, m, hp, hq, hz, hall⟩ := ih _ _ p h
      refine ⟨midpoint low high :: init, m, ?_, hq, hz, ?_⟩
      · simp [Trace.step, hp]
      · intro m' hm'
        rcases List.mem_cons.1 hm' with rfl | hm'
        · omega
        · exact hall m' hm'
    · obtain rfl : f' = f := by omega
      rw [e] at h ⊢
      obtain ⟨init, m, hp, hq, hz, hall⟩ := ih _ _ p h
      refine ⟨midpoint low high :: init, m, ?_, hq, hz, ?_⟩
      · simp [Trace.step, hp]
      · intro m' hm'
        rcases List.mem_cons.1 hm' with rfl | hm'
        · omega
        · exact hall m' hm'

/-! ## Runs that stay inside the `int` range -/

/-- From `0 ≤ low` and `high < INT_MAX` on, every probe lies in `[low, high]`
and the bounds only move towards each other. -/
theorem search_loop_in_range : ∀ (fuel : Nat) (low high : Int),
    0 ≤ low → high < 2147483647 → low ≤ high + 1 →
    (∀ m ∈ (search_loop cmp key base sz fuel low high).probes, low ≤ m ∧ m ≤ high) ∧
    (∀ q ∈ (search_loop cmp key base sz fuel low high).bounds,
      low ≤ q.1 ∧ q.1 ≤ high + 1 ∧ low - 1 ≤ q.2 ∧ q.2 ≤ high) := by
  intro fuel
  induction fuel with
  | zero => intro low high _ _ _; simp [search_loop]
  | succ f ih =>
    intro low high h0 h1 h2
    rcases search_loop_cases cmp key base sz (f + 1) low high with
      ⟨hf, _⟩ | ⟨_, e⟩ | ⟨hl, _, e⟩ | ⟨f', hf, hl, _, e⟩ | ⟨f', hf, hl, _, e⟩
    · omega
    · rw [e]
      refine ⟨by simp, ?_⟩
      intro q hq
      simp only [List.mem_singleton] at hq
      subst hq
      simp only
      omega
    · obtain ⟨_, hm1, hm2⟩ := midpoint_spec h0 hl (by omega)
      rw [e]
      constructor
      · intro m hm
        simp only [List.mem_singleton] at hm
        subst hm
        exact ⟨hm1, hm2⟩
      · intro q hq
        simp only [List.mem_singleton] at hq
        subst hq
        simp only
        omega
    · obtain rfl : f' = f := by omega
      obtain ⟨_, hm1, hm2⟩ := midpoint_spec h0 hl (by omega)
      have hw : wrapInt (midpoint low high + 1) = midpoint low high + 1 :=
        wrapInt_of_inRange (by omega) (by omega)
      rw [e, hw]
      obtain ⟨ihp, ihb⟩ := ih (midpoint low high + 1) high (by omega) h1 (by omega)
      constructor
      · intro m hm
        simp only [Trace.step, List.mem_cons] at hm
        rcases hm with rfl | hm
        · exact ⟨hm1, hm2⟩
        · have := ihp m hm
          omega
      · intro q hq
        simp only [Trace.step, List.mem_cons] at hq
        rcases hq with rfl | hq
        · simp only
          omega
        · have := ihb q hq
          omega
    · obtain rfl : f' = f := by omega
      obtain ⟨_, hm1, hm2⟩ := midpoint_spec h0 hl (by omega)
      have hw : wrapInt (midpoint low high - 1) = midpoint low high - 1 :=
        wrapInt_of_inRange (by omega) (by omega)
      rw [e, hw]
      obtain ⟨ihp, ihb⟩ := ih low (midpoint low high - 1) h0 (by omega) (by omega)
      constructor
      · intro m hm
        simp only [Trace.step, List.mem_cons] at hm
        rcases hm with rfl | hm
        · exact ⟨hm1, hm2⟩
        · have := ihp m hm
          omega
      · intro q hq
        simp only [Trace.step, List.mem_cons] at hq
        rcases hq with rfl | hq
        · simp only
          omega
        · have := ihb q hq
          omega

/-- From `0 ≤ low` and `high < INT_MAX` on, the number of probes is at most
`ceil(log2(size + 1))`, where `size = high - low + 1` is the size of the range. -/
theorem search_loop_probes_length : ∀ (fuel : Nat) (low high : Int),
    0 ≤ low → high < 2147483647 →
    (search_loop cmp key base sz fuel low high).probes.length ≤
      Nat.clog 2 (high - low + 2).toNat := by
  intro fuel
  induction fuel with
  | zero => intro low high _ _; simp [search_loop]
  | succ f ih =>
    intro low high h0 h1
    rcases search_loop_cases cmp key base sz (f + 1) low high with
      ⟨hf, _⟩ | ⟨_, e⟩ | ⟨hl, _, e⟩ | ⟨f', hf, hl, _, e⟩ | ⟨f', hf, hl, _, e⟩
    · omega
    · rw [e]; simp
    · rw [e]
      have : 0 < Nat.clog 2 (high - low + 2).toNat := Nat.clog_pos (by decide) (by omega)
      simpa using this
    · obtain rfl : f' = f := by omega
      obtain ⟨hm, hm1, hm2⟩ := midpoint_spec h0 hl (by omega)
      have hw : wrapInt (midpoint low high + 1) = midpoint low high + 1 :=
        wrapInt_of_inRange (by omega) (by omega)
      rw [e, hw]
      have h := ih (midpoint low high + 1) high (by omega) h1
      rw [Nat.clog_of_two_le (by decide) (by omega : 2 ≤ (high - low + 2).toNat)]
      have hmono : Nat.clog 2 (high - (midpoint low high + 1) + 2).toNat ≤
          Nat.clog 2 (((high - low + 2).toNat + 2 - 1) / 2) :=
        Nat.clog_mono_right 2 (by omega)
      simp only [Trace.step, List.length_cons]
      omega
    · obtain rfl : f' = f := by omega
      obtain ⟨hm, hm1, hm2⟩ := midpoint_spec h0 hl (by omega)
      have hw : wrapInt (midpoint low high - 1) = midpoint low high - 1 :=
        wrapInt_of_inRange (by omega) (by omega)
      rw [e, hw]
      have h := ih low (midpoint low high - 1) h0 (by omega)
      rw [Nat.clog_of_two_le (by decide) (by omega : 2 ≤ (high - low + 2).toNat)]
      have hmono : Nat.clog 2 (midpoint low high - 1 - low + 2).toNat ≤
          Nat.clog 2 (((high - low + 2).toNat + 2 - 1) / 2) :=
        Nat.clog_mono_right 2 (by omega)
      simp only [Trace.step, List.length_cons]
      omega

/-- From `0 ≤ low` and `high < INT_MAX` on, the loop returns once the fuel
exceeds the size of the range. -/
theorem search_loop_returns : ∀ (fuel : Nat) (low high : Int),
    0 ≤ low → high < 2147483647 → (high - low + 1).toNat < fuel →
    (search_loop cmp key base sz fuel low high).result ≠ .out_of_fuel := by
  intro fuel
  induction fuel with
  | zero => intro low high _ _ h; omega
  | succ f ih =>
    intro low high h0 h1 hfuel
    rcases search_loop_cases cmp key base sz (f + 1) low high with
      ⟨hf, _⟩ | ⟨_, e⟩ | ⟨hl, _, e⟩ | ⟨f', hf, hl, _, e⟩ | ⟨f', hf, hl, _, e⟩
    · omega
    · rw [e]; simp
    · rw [e]; simp
    · obtain rfl : f' = f := by omega
      obtain ⟨hm, hm1, hm2⟩ := midpoint_spec h0 hl (by omega)
      have hw : wrapInt (midpoint low high + 1) = midpoint low high + 1 :=
        wrapInt_of_inRange (by omega) (by omega)
      rw [e, hw]
      exact ih (midpoint low high + 1) high (by omega) h1 (by omega)
    · obtain rfl : f' = f := by omega
      obtain ⟨hm, hm1, hm2⟩ := midpoint_spec h0 hl (by omega)
      have hw : wrapInt (midpoint low high - 1) = midpoint low high - 1 :=
        wrapInt_of_inRange (by omega) (by omega)
      rw [e, hw]
      exact ih low (midpoint low high - 1) h0 (by omega) (by omega)

/-- On a range over which the comparator's verdict on the key is monotone
(once "less", "less" at every later index; once "greater", "greater" at every
earlier index), the loop returns a match exactly when the range has one. -/
theorem search_loop_monotone : ∀ (fuel : Nat) (low high : Int),
    0 ≤ low → high < 2147483647 → (high - low + 1).toNat < fuel →
    (∀ i j : Int, low ≤ i → i ≤ j → j ≤ high →
      (cmp key (elem_ptr base i sz) < 0 → cmp key (elem_ptr base j sz) < 0) ∧
      (0 < cmp key (elem_ptr base j sz) → 0 < cmp key (elem_ptr base i sz))) →
    (∃ m, low ≤ m ∧ m ≤ high ∧ cmp key (elem_ptr base m sz) = 0 ∧
      (search_loop cmp key base sz fuel low high).result = .found (elem_ptr base m sz)) ∨
    ((∀ m, low ≤ m → m ≤ high → cmp key (elem_ptr base m sz) ≠ 0) ∧
      (search_loop cmp key base sz fuel low high).result = .not_found) := by
  intro fuel
  induction fuel with
  | zero => intro low high _ _ h; omega
  | succ f ih =>
    intro low high h0 h1 hfuel hmono
    rcases search_loop_cases cmp key base sz (f + 1) low high with
      ⟨hf, _⟩ | ⟨hl, e⟩ | ⟨hl, hc, e⟩ | ⟨f', hf, hl, hc, e⟩ | ⟨f', hf, hl, hc, e⟩
    · omega
    · right
      rw [e]
      exact ⟨fun m a b => absurd (le_trans a b) hl, rfl⟩
    · obtain ⟨_, hm1, hm2⟩ := midpoint_spec h0 hl (by omega)
      left
      rw [e]
      exact ⟨midpoint low high, hm1, hm2, hc, rfl⟩
    · obtain rfl : f' = f := by omega
      obtain ⟨_, hm1, hm2⟩ := midpoint_spec h0 hl (by omega)
      have hw : wrapInt (midpoint low high + 1) = midpoint low high + 1 :=
        wrapInt_of_inRange (by omega) (by omega)
      rw [e, hw]
      have hrec := ih (midpoint low high + 1) high (by omega) h1 (by omega)
        (fun i j a b c => hmono i j (by omega) b c)
      rcases hrec with ⟨m, a, b, c, d⟩ | ⟨hnone, d⟩
      · exact Or.inl ⟨m, by omega, b, c, d⟩
      · right
        refine ⟨?_, d⟩
        intro m a b
        by_cases hmm : m ≤ midpoint low high
        · have := (hmono m (midpoint low high) a hmm hm2).2 hc
          omega
        · exact hnone m (by omega) b
    · obtain rfl : f' = f := by omega
      obtain ⟨_, hm1, hm2⟩ := midpoint_spec h0 hl (by omega)
      have hw : wrapInt (midpoint low high - 1) = midpoint low high - 1 :=
        wrapInt_of_inRange (by omega) (by omega)
      rw [e, hw]
      have hrec := ih low (midpoint low high - 1) h0 (by omega) (by omega)
        (fun i j a b c => hmono i j a b (by omega))
      rcases hrec with ⟨m, a, b, c, d⟩ | ⟨hnone, d⟩
      · exact Or.inl ⟨m, a, by omega, c, d⟩
      · right
        refine ⟨?_, d⟩
        intro m a b
        by_cases hmm : midpoint low high ≤ m
        · have := (hmono (midpoint low high) m hm1 hmm b).1 hc
          omega
        · exact hnone m a (by omega)

/-- Once the loop has returned, more fuel changes nothing. -/
theorem search_loop_fuel_mono : ∀ (fuel : Nat) (low high : Int),
    (search_loop cmp key base sz fuel low high).result ≠ .out_of_fuel →
    ∀ k, search_loop cmp key base sz (fuel + k) low high =
      search_loop cmp key base sz fuel low high := by
  intro fuel
  induction fuel with
  | zero => intro low high h; simp [search_loop] at h
  | succ f ih =>
    intro low high h k
    have hk : f + 1 + k = (f + k) + 1 := by omega
    rw [hk]
    by_cases hl : low ≤ high
    · rcases lt_trichotomy (cmp key (elem_ptr base (midpoint low high) sz)) 0 with hc | hc | hc
      · rw [search_loop_left cmp key base sz f hl hc] at h ⊢
        rw [search_loop_left cmp key base sz (f + k) hl hc, ih _ _ h k]
      · rw [search_loop_hit cmp key base sz f hl hc, search_loop_hit cmp key base sz (f + k) hl hc]
      · rw [search_loop_right cmp key base sz f hl hc] at h ⊢
        rw [search_loop_right cmp key base sz (f + k) hl hc, ih _ _ h k]
    · rw [search_loop_exit cmp key base sz f hl, search_loop_exit cmp key base sz (f + k) hl]

end Loop

/-- Two runs of the loop over the same index range whose comparators give the
same verdict at every index of the range take the same path. -/
theorem search_loop_congr (cmp1 cmp2 : Nat → Nat → Int) (key1 key2 b1 b2 s1 s2 : Nat) :
    ∀ (fuel : Nat) (low high : Int), 0 ≤ low → high < 2147483647 →
    (∀ m : Int, low ≤ m → m ≤ high →
      cmp1 key1 (elem_ptr b1 m s1) = cmp2 key2 (elem_ptr b2 m s2)) →
    (search_loop cmp1 key1 b1 s1 fuel low high).probes =
      (search_loop cmp2 key2 b2 s2 fuel low high).probes ∧
    (search_loop cmp1 key1 b1 s1 fuel low high).bounds =
      (search_loop cmp2 key2 b2 s2 fuel low high).bounds ∧
    (((search_loop cmp1 key1 b1 s1 fuel low high).result = .not_found ∧
        (search_loop cmp2 key2 b2 s2 fuel low high).result = .not_found) ∨
      ((search_loop cmp1 key1 b1 s1 fuel low high).result = .out_of_fuel ∧
        (search_loop cmp2 key2 b2 s2 fuel low high).result = .out_of_fuel) ∨
      (∃ m, low ≤ m ∧ m ≤ high ∧
        (search_loop cmp1 key1 b1 s1 fuel low high).result = .found (elem_ptr b1 m s1) ∧
        (search_loop cmp2 key2 b2 s2 fuel low high).result = .found (elem_ptr b2 m s2))) := by
  intro fuel
  induction fuel with
  | zero => intro low high _ _ _; simp [search_loop]
  | succ f ih =>
    intro low high h0 h1 hag
    by_cases hl : low ≤ high
    · obtain ⟨_, hm1, hm2⟩ := midpoint_spec h0 hl (by omega)
      have hmid := hag (midpoint low high) hm1 hm2
      rcases lt_trichotomy (cmp1 key1 (elem_ptr b1 (midpoint low high) s1)) 0 with hc | hc | hc
      · have hw : wrapInt (midpoint low high - 1) = midpoint low high - 1 :=
          wrapInt_of_inRange (by omega) (by omega)
        rw [search_loop_left cmp1 key1 b1 s1 f hl hc,
          search_loop_left cmp2 key2 b2 s2 f hl (hmid ▸ hc), hw]
        obtain ⟨ep, eb, er⟩ := ih low (midpoint low high - 1) h0 (by omega)
          (fun m a b => hag m a (by omega))
        refine ⟨by simp [Trace.step, ep], by simp [Trace.step, eb], ?_⟩
        rcases er with er | er | ⟨m, a, b, c, d⟩
        · exact Or.inl er
        · exact Or.inr (Or.inl er)
        · exact Or.inr (Or.inr ⟨m, a, by omega, c, d⟩)
      · rw [search_loop_hit cmp1 key1 b1 s1 f hl hc,
          search_loop_hit cmp2 key2 b2 s2 f hl (hmid ▸ hc)]
        exact ⟨rfl, rfl, Or.inr (Or.inr ⟨midpoint low high, hm1, hm2, rfl, rfl⟩)⟩
      · have hw : wrapInt (midpoint low high + 1) = midpoint low high + 1 :=
          wrapInt_of_inRange (by omega) (by omega)
        rw [search_loop_right cmp1 key1 b1 s1 f hl hc,
          search_loop_right cmp2 key2 b2 s2 f hl (hmid ▸ hc), hw]
        obtain ⟨ep, eb, er⟩ := ih (midpoint low high + 1) high (by omega) h1
          (fun m a b => hag m (by omega) b)
        refine ⟨by simp [Trace.step, ep], by simp [Trace.step, eb], ?_⟩
        rcases er with er | er | ⟨m, a, b, c, d⟩
        · exact Or.inl er
        · exact Or.inr (Or.inl er)
        · exact Or.inr (Or.inr ⟨m, by omega, b, c, d⟩)
    · rw [search_loop_exit cmp1 key1 b1 s1 f hl, search_loop_exit cmp2 key2 b2 s2 f hl]
      exact ⟨rfl, rfl, Or.inl ⟨rfl, rfl⟩⟩

/-- Once `binary_search` has returned, more fuel changes nothing. -/
theorem binary_search_fuel_mono (cmp : Nat → Nat → Int) (key values n sz fuel fuel' : Nat)
    (h : (binary_search fuel cmp key values n sz).result ≠ .out_of_fuel) (hle : fuel ≤ fuel') :
    binary_search fuel' cmp key values n sz = binary_search fuel cmp key values n sz := by
  obtain ⟨k, rfl⟩ := Nat.exists_eq_add_of_le hle
  exact search_loop_fuel_mono cmp key values sz fuel _ _ h k

/-! ## Sorted sequences -/

/-- In a sequence sorted per a comparator that keeps its contract, the verdict
on a key is monotone along the sequence. -/
theorem sorted_monotone {cmp : Nat → Nat → Int} {D : Nat → Prop} {key values n sz : Nat}
    (hc : Contract cmp D) (hk : D key) (hd : ∀ i, i < n → D (elem_addr values i sz))
    (hs : SortedPer cmp values n sz) {i j : Nat} (hij : i ≤ j) (hj : j < n) :
    (cmp key (elem_addr values i sz) < 0 → cmp key (elem_addr values j sz) < 0) ∧
    (0 < cmp key (elem_addr values j sz) → 0 < cmp key (elem_addr values i sz)) := by
  have di := hd i (by omega)
  have dj := hd j hj
  have hsort := hs i j hij hj
  have a1 := hc.antisymm _ _ hk di
  have a2 := hc.antisymm _ _ di hk
  have a3 := hc.antisymm _ _ hk dj
  have a4 := hc.antisymm _ _ dj hk
  have a5 := hc.antisymm _ _ di dj
  have a6 := hc.antisymm _ _ dj di
  have t1 := hc.trans_gt _ _ _ di hk dj
  have t2 := hc.trans_gt _ _ _ dj di hk
  have t3 := hc.trans_gt _ _ _ hk dj di
  have e1 := hc.trans_eq _ _ _ di dj hk
  have e2 := hc.trans_eq _ _ _ dj di hk
  constructor
  · intro h
    by_contra hcon
    rcases lt_trichotomy (cmp key (elem_addr values j sz)) 0 with h' | h' | h'
    · exact hcon h'
    · rcases lt_or_eq_of_le hsort with hx | hx
      · have := t2 (by omega) (by omega)
        omega
      · have := e1 hx (by omega)
        omega
    · have := t1 (by omega) h'
      omega
  · intro h
    by_contra hcon
    rcases lt_trichotomy (cmp key (elem_addr values i sz)) 0 with h' | h' | h'
    · have := t1 (by omega) h
      omega
    · rcases lt_or_eq_of_le hsort with hx | hx
      · have := t3 h (by omega)
        omega
      · have := e2 (by omega) (by omega)
        omega
    · exact hcon h'

/-- The three ways through `int_cmp`. -/
theorem int_cmp_cases (mem : Nat → Int) (a b : Nat) :
    (mem b < mem a ∧ int_cmp mem a b = 1) ∨ (mem a < mem b ∧ int_cmp mem a b = -1) ∨
      (mem a = mem b ∧ int_cmp mem a b = 0) := by
  unfold int_cmp
  by_cases h1 : mem a > mem b
  · exact Or.inl ⟨h1, if_pos h1⟩
  · by_cases h2 : mem a < mem b
    · exact Or.inr (Or.inl ⟨h2, by simp only [if_neg h1, if_pos h2]⟩)
    · exact Or.inr (Or.inr ⟨by omega, by simp only [if_neg h1, if_neg h2]⟩)

/-- The comparator `int_cmp` keeps the comparator contract on every address. -/
theorem int_cmp_contract (mem : Nat → Int) : Contract (int_cmp mem) (fun _ => True) := by
  refine ⟨?_, ?_, ?_⟩
  · intro a b _ _
    have h1 := int_cmp_cases mem a b
    have h2 := int_cmp_cases mem b a
    omega
  · intro a b c _ _ _
    have h1 := int_cmp_cases mem a b
    have h2 := int_cmp_cases mem b c
    have h3 := int_cmp_cases mem a c
    omega
  · intro a b c _ _ _
    have h1 := int_cmp_cases mem a b
    have h2 := int_cmp_cases mem b c
    have h3 := int_cmp_cases mem a c
    omega

/-! ## C1: a sorted sequence is searched correctly -/

/-- The array `{ 1, 4, 7, 18, 90 }` of `main` is sorted per `int_cmp`. -/
theorem main_array_sorted : SortedPer (int_cmp main_mem) array_addr 5 4 := by
  intro i j hij hj
  have hi : i < 5 := by omega
  interval_cases j <;> interval_cases i <;> first | omega | decide

/-- C1, as stated, fails on an array of `2^31 + 1` elements: `num_elems - 1`
converted to `int` is `INT_MIN`, the loop body never runs, and `NULL` is
returned although the key (`0`, in an array of zeros) occurs in the sorted
sequence. -/
theorem binary_search_large_count_misses :
    SortedPer (int_cmp (fun _ => 0)) 4096 2147483649 4 ∧
    Occurs (int_cmp (fun _ => 0)) 0 4096 2147483649 4 ∧
    2147483649 * 4 < SIZE_MOD ∧
    binary_search 2147483650 (int_cmp (fun _ => 0)) 0 4096 2147483649 4 =
      { result := .not_found, probes := [], bounds := [(0, -2147483648)] } := by
  refine ⟨?_, ⟨0, by decide, by decide⟩, by decide, by decide⟩
  intro i j _ _
  have h := int_cmp_cases (fun _ => 0) (elem_addr 4096 i 4) (elem_addr 4096 j 4)
  omega

/-- C1 (amended): for every sequence of `num_elems ≤ INT_MAX` elements stored
from `values` on with stride `elem_sz` (fitting in the address space), sorted
ascending per a comparator `cmp` that keeps the comparator contract, and every
key, `binary_search` returns a reference to some element `A[i]` with
`cmp(key, A[i]) == 0` if and only if the key occurs in the sequence, and
returns `NULL` otherwise.  In `main` (`int_cmp`, `{ 1, 4, 7, 18, 90 }`) the
keys `1`, `7`, `90` are found at indices `0`, `2`, `4` and the keys `5`, `19`
give `NULL`. -/
theorem binary_search_finds_iff_occurs (cmp : Nat → Nat → Int) (D : Nat → Prop)
    (key values num_elems elem_sz fuel : Nat)
    (hc : Contract cmp D) (hk : D key)
    (hd : ∀ i, i < num_elems → D (elem_addr values i elem_sz))
    (hs : SortedPer cmp values num_elems elem_sz)
    (hn : (num_elems : Int) ≤ INT_MAX) (hfit : num_elems * elem_sz < SIZE_MOD)
    (hfuel : num_elems < fuel) :
    ((∃ i, i < num_elems ∧ cmp key (elem_addr values i elem_sz) = 0 ∧
        (binary_search fuel cmp key values num_elems elem_sz).result =
          .found (elem_addr values i elem_sz)) ↔
      Occurs cmp key values num_elems elem_sz) ∧
    (¬ Occurs cmp key values num_elems elem_sz →
      (binary_search fuel cmp key values num_elems elem_sz).result = .not_found) ∧
    (∀ f, 5 < f →
      (main_search f 0).result = .found (elem_addr array_addr 0 4) ∧
      (main_search f 1).result = .not_found ∧
      (main_search f 2).result = .found (elem_addr array_addr 2 4) ∧
      (main_search f 3).result = .not_found ∧
      (main_search f 4).result = .found (elem_addr array_addr 4 4)) := by
  simp only [INT_MAX] at hn
  simp only [SIZE_MOD] at hfit
  have hhigh := init_high_eq hn
  have hptr : ∀ m : Int, 0 ≤ m → m ≤ (num_elems : Int) - 1 →
      elem_ptr values m elem_sz = elem_addr values m.toNat elem_sz ∧ m.toNat < num_elems :=
    fun m a b => ⟨elem_ptr_eq_addr a (by omega) hfit, by omega⟩
  have hmain := search_loop_monotone cmp key values elem_sz fuel 0 ((num_elems : Int) - 1)
    (le_refl 0) (by omega) (by omega) (by
      intro i j hi hij hj
      rw [(hptr i hi (by omega)).1, (hptr j (by omega) hj).1]
      exact sorted_monotone hc hk hd hs (by omega) (hptr j (by omega) hj).2)
  have hres : (binary_search fuel cmp key values num_elems elem_sz).result =
      (search_loop cmp key values elem_sz fuel 0 ((num_elems : Int) - 1)).result := by
    unfold binary_search
    simp only [hhigh]
  rw [hres]
  refine ⟨⟨fun ⟨i, hi, hz, _⟩ => ⟨i, hi, hz⟩, ?_⟩, ?_, ?_⟩
  · rintro ⟨i, hi, hz⟩
    rcases hmain with ⟨m, a, b, c, d⟩ | ⟨hnone, _⟩
    · obtain ⟨e, hlt⟩ := hptr m a b
      rw [e] at c d
      exact ⟨m.toNat, hlt, c, d⟩
    · have hi' : ((i : Nat) : Int) ≤ (num_elems : Int) - 1 := by omega
      have := hnone (i : Int) (by omega) hi'
      rw [(hptr (i : Int) (by omega) hi').1, Int.toNat_ofNat] at this
      exact absurd hz this
  · intro hno
    rcases hmain with ⟨m, a, b, c, _⟩ | ⟨_, d⟩
    · obtain ⟨e, hlt⟩ := hptr m a b
      rw [e] at c
      exact absurd ⟨m.toNat, hlt, c⟩ hno
    · exact d
  · intro f hf
    have h6 : ∀ i, (main_search 6 i).result ≠ .out_of_fuel → main_search f i = main_search 6 i :=
      fun i h => binary_search_fuel_mono _ _ _ _ _ 6 f h (by omega)
    rw [h6 0 (by decide), h6 1 (by decide), h6 2 (by decide), h6 3 (by decide),
      h6 4 (by decide)]
    decide

/-- C1 at the search for `keys[2] = 7` in `main`. -/
theorem binary_search_finds_iff_occurs_witness :
    (∃ i, i < 5 ∧ int_cmp main_mem (keys_addr + 4 * 2) (elem_addr array_addr i 4) = 0 ∧
        (binary_search 6 (int_cmp main_mem) (keys_addr + 4 * 2) array_addr 5 4).result =
          .found (elem_addr array_addr i 4)) ↔
      Occurs (int_cmp main_mem) (keys_addr + 4 * 2) array_addr 5 4 :=
  (binary_search_finds_iff_occurs (int_cmp main_mem) (fun _ => True)
    (keys_addr + 4 * 2) array_addr 5 4 6 (int_cmp_contract main_mem) trivial
    (fun _ _ => trivial) main_array_sorted (by decide) (by decide) (by decide)).1

/-! ## C2: the empty sequence -/

/-- C2: for every key, base, element size and comparator, `binary_search` with
`num_elems = 0` (and any fuel `≥ 1`) returns `NULL` without invoking the
comparator: the initial `high`, the `size_t` value `0 - 1` converted to `int`,
is `-1`, so `low = 0 > high` at the only evaluation of the loop condition. -/
theorem binary_search_empty (fuel : Nat) (cmp : Nat → Nat → Int) (key values elem_sz : Nat) :
    wrapSize ((0 : Nat) - 1 : Int) = 18446744073709551615 ∧
    wrapInt (wrapSize ((0 : Nat) - 1 : Int)) = -1 ∧
    binary_search (fuel + 1) cmp key values 0 elem_sz =
      { result := .not_found, probes := [], bounds := [(0, -1)] } := by
  refine ⟨by decide, by decide, ?_⟩
  unfold binary_search
  have h : wrapInt (wrapSize (((0 : Nat) : Int) - 1)) = -1 := by decide
  simp only [h]
  exact search_loop_exit cmp key values elem_sz fuel (by decide)

/-! ## C3: one-element sequences -/

/-- C3: for every one-element sequence, key and comparator, `binary_search`
with `num_elems = 1` (and any fuel `≥ 2`) returns the base address (the
reference to index `0`) if and only if `cmp(key, base) == 0`, returns `NULL`
otherwise, and invokes the comparator exactly once (at index `0`). -/
theorem binary_search_singleton (fuel : Nat) (cmp : Nat → Nat → Int)
    (key values elem_sz : Nat) :
    ((binary_search (fuel + 2) cmp key values 1 elem_sz).result = .found values ↔
      cmp key values = 0) ∧
    (cmp key values ≠ 0 →
      (binary_search (fuel + 2) cmp key values 1 elem_sz).result = .not_found) ∧
    (binary_search (fuel + 2) cmp key values 1 elem_sz).probes = [0] ∧
    elem_ptr values 0 elem_sz = values := by
  have hp : elem_ptr values 0 elem_sz = values := by
    simp [elem_ptr, wrapSize]
  have hh : wrapInt (wrapSize (((1 : Nat) : Int) - 1)) = 0 := by decide
  have hm : midpoint 0 0 = 0 := by decide
  have hl : (0 : Int) ≤ 0 := le_refl 0
  have hr : wrapInt (midpoint 0 0 + 1) = 1 := by decide
  have hq : wrapInt (midpoint 0 0 - 1) = -1 := by decide
  unfold binary_search
  simp only [hh]
  rcases lt_trichotomy (cmp key values) 0 with hc | hc | hc
  · have hc' : cmp key (elem_ptr values (midpoint 0 0) elem_sz) < 0 := by rw [hm, hp]; exact hc
    rw [search_loop_left cmp key values elem_sz (fuel + 1) hl hc', hq,
      search_loop_exit cmp key values elem_sz fuel (by decide)]
    exact ⟨⟨fun h => by simp [Trace.step] at h, fun h => by omega⟩, fun _ => rfl,
      by simp [Trace.step, hm], hp⟩
  · have hc' : cmp key (elem_ptr values (midpoint 0 0) elem_sz) = 0 := by rw [hm, hp]; exact hc
    rw [search_loop_hit cmp key values elem_sz (fuel + 1) hl hc']
    exact ⟨⟨fun _ => hc, fun _ => by simp [hm, hp]⟩, fun h => absurd hc h,
      by simp [hm], hp⟩
  · have hc' : 0 < cmp key (elem_ptr values (midpoint 0 0) elem_sz) := by rw [hm, hp]; exact hc
    rw [search_loop_right cmp key values elem_sz (fuel + 1) hl hc', hr,
      search_loop_exit cmp key values elem_sz fuel (by decide)]
    exact ⟨⟨fun h => by simp [Trace.step] at h, fun h => by omega⟩, fun _ => rfl,
      by simp [Trace.step, hm], hp⟩

/-! ## C4: the number of comparisons -/

/-- C4, as stated, fails for `num_elems = 2^31`: searching an array of `2^31`
zeros for the key `1`, the 32nd probe is at `mid = INT_MAX`, `low = mid + 1`
wraps to `INT_MIN`, the loop goes on, and with 40 units of fuel the comparator
has been invoked 40 times, more than `ceil(log2(2^31 + 1)) = 32`. -/
theorem binary_search_count_overflow :
    SortedPer (int_cmp zeros_mem) 4096 2147483648 4 ∧
    Nat.clog 2 (2147483648 + 1) = 32 ∧
    (binary_search 40 (int_cmp zeros_mem) 0 4096 2147483648 4).probes.length = 40 ∧
    (binary_search 40 (int_cmp zeros_mem) 0 4096 2147483648 4).probes.get? 31 =
      some 2147483647 ∧
    (binary_search 40 (int_cmp zeros_mem) 0 4096 2147483648 4).bounds.get? 32 =
      some (-2147483648, 2147483647) := by
  refine ⟨?_, ?_, by decide, by decide, by decide⟩
  · intro i j _ _
    have h := int_cmp_cases zeros_mem (elem_addr 4096 i 4) (elem_addr 4096 j 4)
    have hi : zeros_mem (elem_addr 4096 i 4) = 0 := by
      unfold zeros_mem elem_addr; rw [if_neg (by omega)]
    have hj : zeros_mem (elem_addr 4096 j 4) = 0 := by
      unfold zeros_mem elem_addr; rw [if_neg (by omega)]
    omega
  · apply le_antisymm
    · exact (Nat.le_pow_iff_clog_le (by decide)).1 (by norm_num)
    · exact Nat.succ_le_of_lt ((Nat.pow_lt_iff_lt_clog (by decide)).1 (by norm_num))

/-- C4 (amended): whenever the initial `high` (`num_elems - 1` converted to
`int`) is below `INT_MAX`, in particular for every `num_elems ≤ INT_MAX`, for
every key, sequence and comparator (and any amount of fuel) the number of
comparator invocations of `binary_search` is at most `ceil(log2(num_elems + 1))`. -/
theorem binary_search_probe_count (fuel : Nat) (cmp : Nat → Nat → Int)
    (key values num_elems elem_sz : Nat)
    (h : wrapInt (wrapSize ((num_elems : Int) - 1)) < INT_MAX) :
    (binary_search fuel cmp key values num_elems elem_sz).probes.length ≤
      Nat.clog 2 (num_elems + 1) := by
  simp only [INT_MAX] at h
  have hle := init_high_le num_elems
  unfold binary_search
  refine le_trans (search_loop_probes_length cmp key values elem_sz fuel 0 _ (le_refl 0) h) ?_
  exact Nat.clog_mono_right 2 (by omega)

/-- C4 at the five-element array of `main`: at most `ceil(log2 6) = 3`
comparisons. -/
theorem binary_search_probe_count_witness :
    wrapInt (wrapSize (((5 : Nat) : Int) - 1)) < INT_MAX ∧
    (binary_search 6 (int_cmp main_mem) (keys_addr + 4 * 3) array_addr 5 4).probes.length ≤
      Nat.clog 2 (5 + 1) :=
  ⟨by decide, binary_search_probe_count 6 (int_cmp main_mem) (keys_addr + 4 * 3) array_addr 5 4
    (by decide)⟩

/-! ## C5: independence of the element size -/

/-- C5, as stated, fails for sequences of `2^31` elements: an array of `2^31`
zeros stored with stride `4` at `4096` and the same sequence stored with
stride `8` at `2^40` compare alike at every logical index, yet the search for
the key `1` in the first returns, after `low` has wrapped to `INT_MIN`, the
address `4096 + 2^64 - 2^33` of the key itself, which is the address of no
element of the array. -/
theorem binary_search_stride_overflow :
    (∀ i, i < 2147483648 →
      int_cmp high_key_mem 18446744065119621120 (elem_addr 4096 i 4) =
        int_cmp high_key_mem 18446744065119621120 (elem_addr 1099511627776 i 8)) ∧
    (binary_search 40 (int_cmp high_key_mem) 18446744065119621120 4096 2147483648 4).result =
      .found 18446744065119621120 ∧
    (∀ i, i < 2147483648 → elem_addr 4096 i 4 ≠ 18446744065119621120) ∧
    (binary_search 40 (int_cmp high_key_mem) 18446744065119621120
      1099511627776 2147483648 8).result = .out_of_fuel := by
  refine ⟨?_, by decide, ?_, by decide⟩
  · intro i hi
    have h1 : high_key_mem (elem_addr 4096 i 4) = 0 := by
      unfold high_key_mem elem_addr; rw [if_neg (by omega)]
    have h2 : high_key_mem (elem_addr 1099511627776 i 8) = 0 := by
      unfold high_key_mem elem_addr; rw [if_neg (by omega)]
    unfold int_cmp
    simp only [h1, h2]
  · intro i hi
    unfold elem_addr
    omega

/-- C5 (amended): for two arrays of `num_elems ≤ INT_MAX` elements with strides
`s1` and `s2`, each fitting in the address space, whose comparators give the
same verdict on the key at every logical index (they store the same logical
sequence), `binary_search` takes the same path of probes in both and returns
either `NULL` in both cases or references to the same logical index `i`, the
returned address being exactly `base + i * elem_sz` in each case. -/
theorem binary_search_stride_independent (cmp1 cmp2 : Nat → Nat → Int)
    (key1 key2 values1 values2 s1 s2 num_elems fuel : Nat)
    (hn : (num_elems : Int) ≤ INT_MAX)
    (hfit1 : num_elems * s1 < SIZE_MOD) (hfit2 : num_elems * s2 < SIZE_MOD)
    (hsame : ∀ i, i < num_elems →
      cmp1 key1 (elem_addr values1 i s1) = cmp2 key2 (elem_addr values2 i s2))
    (hfuel : num_elems < fuel) :
    (binary_search fuel cmp1 key1 values1 num_elems s1).probes =
      (binary_search fuel cmp2 key2 values2 num_elems s2).probes ∧
    (((binary_search fuel cmp1 key1 values1 num_elems s1).result = .not_found ∧
        (binary_search fuel cmp2 key2 values2 num_elems s2).result = .not_found) ∨
      (∃ i, i < num_elems ∧
        (binary_search fuel cmp1 key1 values1 num_elems s1).result =
          .found (elem_addr values1 i s1) ∧
        (binary_search fuel cmp2 key2 values2 num_elems s2).result =
          .found (elem_addr values2 i s2))) := by
  simp only [INT_MAX] at hn
  simp only [SIZE_MOD] at hfit1 hfit2
  have hhigh := init_high_eq hn
  unfold binary_search
  simp only [hhigh]
  have hag : ∀ m : Int, 0 ≤ m → m ≤ (num_elems : Int) - 1 →
      cmp1 key1 (elem_ptr values1 m s1) = cmp2 key2 (elem_ptr values2 m s2) := by
    intro m a b
    rw [elem_ptr_eq_addr a (by omega) hfit1, elem_ptr_eq_addr a (by omega) hfit2]
    exact hsame m.toNat (by omega)
  obtain ⟨ep, _, er⟩ := search_loop_congr cmp1 cmp2 key1 key2 values1 values2 s1 s2 fuel 0
    ((num_elems : Int) - 1) (le_refl 0) (by omega) hag
  refine ⟨ep, ?_⟩
  rcases er with er | ⟨er, _⟩ | ⟨m, a, b, c, d⟩
  · exact Or.inl er
  · exact absurd er (search_loop_returns cmp1 key1 values1 s1 fuel 0 _ (le_refl 0)
      (by omega) (by omega))
  · rw [elem_ptr_eq_addr a (by omega) hfit1] at c
    rw [elem_ptr_eq_addr a (by omega) hfit2] at d
    exact Or.inr ⟨m.toNat, by omega, c, d⟩

/-- C5 at the array of `main` (stride `4`) and the same keys embedded at
offset `4` in elements of `12` bytes, searched for the key `7`. -/
theorem binary_search_stride_independent_witness :
    (binary_search 6 (int_cmp main_mem) (keys_addr + 4 * 2) array_addr 5 4).probes =
      (binary_search 6 (field_cmp (strided_mem 16384 12 4 [1, 4, 7, 18, 90] 0 7) 4)
        0 16384 5 12).probes ∧
    (((binary_search 6 (int_cmp main_mem) (keys_addr + 4 * 2) array_addr 5 4).result =
          .not_found ∧
        (binary_search 6 (field_cmp (strided_mem 16384 12 4 [1, 4, 7, 18, 90] 0 7) 4)
          0 16384 5 12).result = .not_found) ∨
      (∃ i, i < 5 ∧
        (binary_search 6 (int_cmp main_mem) (keys_addr + 4 * 2) array_addr 5 4).result =
          .found (elem_addr array_addr i 4) ∧
        (binary_search 6 (field_cmp (strided_mem 16384 12 4 [1, 4, 7, 18, 90] 0 7) 4)
          0 16384 5 12).result = .found (elem_addr 16384 i 12))) :=
  binary_search_stride_independent (int_cmp main_mem)
    (field_cmp (strided_mem 16384 12 4 [1, 4, 7, 18, 90] 0 7) 4)
    (keys_addr + 4 * 2) 0 array_addr 16384 4 12 5 6 (by decide) (by decide) (by decide)
    (by intro i hi; interval_cases i <;> decide) (by decide)

/-! ## C6, C7: the integer comparator -/

/-- C6: for all `int` values stored behind the two pointers, `int_cmp` returns
a value `> 0` if and only if `a > b`, a value `< 0` if and only if `a < b`, and
`0` if and only if `a = b`; the result is always one of `1`, `-1`, `0`. -/
theorem int_cmp_sign (mem : Nat → Int) (a b : Nat) :
    (0 < int_cmp mem a b ↔ mem a > mem b) ∧
    (int_cmp mem a b < 0 ↔ mem a < mem b) ∧
    (int_cmp mem a b = 0 ↔ mem a = mem b) ∧
    (int_cmp mem a b = 1 ∨ int_cmp mem a b = -1 ∨ int_cmp mem a b = 0) := by
  have h := int_cmp_cases mem a b
  omega

/-- C7: `int_cmp` satisfies the comparator contract on all `int` values, the
extremes `INT_MIN` and `INT_MAX` included: `int_cmp(a, b) = -int_cmp(b, a)`
(and the negation does not overflow), "greater", "less" and "equal" are
transitive, every value equals itself, and exactly one of the three verdicts
holds for each pair; so "less" is a strict total order on the classes of
"equal". -/
theorem int_cmp_total_order (mem : Nat → Int) :
    (∀ a b, int_cmp mem a b = -int_cmp mem b a ∧
      wrapInt (-int_cmp mem b a) = -int_cmp mem b a) ∧
    (∀ a b c, 0 < int_cmp mem a b → 0 < int_cmp mem b c → 0 < int_cmp mem a c) ∧
    (∀ a b c, int_cmp mem a b < 0 → int_cmp mem b c < 0 → int_cmp mem a c < 0) ∧
    (∀ a b c, int_cmp mem a b = 0 → int_cmp mem b c = 0 → int_cmp mem a c = 0) ∧
    (∀ a, int_cmp mem a a = 0) ∧
    (∀ a b, int_cmp mem a b < 0 ∨ int_cmp mem a b = 0 ∨ int_cmp mem b a < 0) ∧
    (∀ a b, mem a = INT_MIN → mem b = INT_MAX →
      int_cmp mem a b = -1 ∧ int_cmp mem b a = 1) := by
  refine ⟨?_, ?_, ?_, ?_, ?_, ?_, ?_⟩
  · intro a b
    have h1 := int_cmp_cases mem a b
    have h2 := int_cmp_cases mem b a
    have h3 : -int_cmp mem b a = int_cmp mem a b := by omega
    rw [h3]
    exact ⟨rfl, wrapInt_of_inRange (by omega) (by omega)⟩
  · intro a b c
    have h1 := int_cmp_cases mem a b
    have h2 := int_cmp_cases mem b c
    have h3 := int_cmp_cases mem a c
    omega
  · intro a b c
    have h1 := int_cmp_cases mem a b
    have h2 := int_cmp_cases mem b c
    have h3 := int_cmp_cases mem a c
    omega
  · intro a b c
    have h1 := int_cmp_cases mem a b
    have h2 := int_cmp_cases mem b c
    have h3 := int_cmp_cases mem a c
    omega
  · intro a
    have h1 := int_cmp_cases mem a a
    omega
  · intro a b
    have h1 := int_cmp_cases mem a b
    have h2 := int_cmp_cases mem b a
    omega
  · intro a b ha hb
    have h1 := int_cmp_cases mem a b
    have h2 := int_cmp_cases mem b a
    simp only [INT_MIN, INT_MAX] at ha hb
    omega

/-! ## C8: the midpoint -/

/-- C8: for all `int` values with `0 ≤ low ≤ high ≤ INT_MAX`, no intermediate
step of `low + (high - low) / 2` leaves the `int` range, the result is
`floor((low + high) / 2)` and lies in `[low, high]`; whereas for some such
`low` and `high` the sum `low + high` exceeds `INT_MAX`, so that
`(low + high) / 2` in `int` arithmetic is not the midpoint. -/
theorem midpoint_no_overflow (low high : Int) (h0 : 0 ≤ low) (h1 : low ≤ high)
    (h2 : high ≤ INT_MAX) :
    InIntRange (high - low) ∧
    InIntRange ((high - low).tdiv 2) ∧
    InIntRange (low + (high - low).tdiv 2) ∧
    midpoint low high = low + (high - low).tdiv 2 ∧
    midpoint low high = (low + high) / 2 ∧
    low ≤ midpoint low high ∧ midpoint low high ≤ high ∧
    (∃ l h : Int, 0 ≤ l ∧ l ≤ h ∧ h ≤ INT_MAX ∧ INT_MAX < l + h ∧
      ¬ InIntRange (l + h) ∧ naive_midpoint l h ≠ (l + h) / 2 ∧
      midpoint l h = (l + h) / 2) := by
  simp only [INT_MAX] at h2
  have ht : (high - low).tdiv 2 = (high - low) / 2 :=
    Int.tdiv_eq_ediv (by omega) (by decide)
  obtain ⟨hm, hm1, hm2⟩ := midpoint_spec h0 h1 h2
  refine ⟨?_, ?_, ?_, ?_, hm, hm1, hm2, ?_⟩
  · unfold InIntRange INT_MIN INT_MAX; omega
  · rw [ht]; unfold InIntRange INT_MIN INT_MAX; omega
  · rw [ht]; unfold InIntRange INT_MIN INT_MAX; omega
  · rw [hm, ht]; omega
  · exact ⟨1073741824, 2147483647, by decide, by decide, by decide, by decide,
      by unfold InIntRange INT_MIN INT_MAX; omega, by decide, by decide⟩

/-- C8 at `low = 2^30`, `high = INT_MAX`. -/
theorem midpoint_no_overflow_witness :
    midpoint 1073741824 2147483647 = (1073741824 + 2147483647) / 2 :=
  (midpoint_no_overflow 1073741824 2147483647 (by decide) (by decide) (by decide)).2.2.2.2.1

/-! ## C9: the search stays inside the sequence -/

/-- C9: for every `num_elems ≤ INT_MAX`, every sequence, key and comparator
(and any amount of fuel), every index `mid` at which `binary_search` computes
an element reference satisfies `0 ≤ mid < num_elems`, `low` stays within
`[0, num_elems]` and `high` within `[-1, num_elems - 1]`, and a non-`NULL`
result is the reference computed at one of these indices; for a sequence that
fits in the address space, every reference computed is the address of an
element lying wholly inside the sequence, and so is any non-`NULL` result. -/
theorem binary_search_in_bounds (fuel : Nat) (cmp : Nat → Nat → Int)
    (key values num_elems elem_sz : Nat) (hn : (num_elems : Int) ≤ INT_MAX) :
    (∀ m ∈ (binary_search fuel cmp key values num_elems elem_sz).probes,
      0 ≤ m ∧ m < num_elems) ∧
    (∀ q ∈ (binary_search fuel cmp key values num_elems elem_sz).bounds,
      0 ≤ q.1 ∧ q.1 ≤ num_elems ∧ -1 ≤ q.2 ∧ q.2 ≤ (num_elems : Int) - 1) ∧
    (∀ p, (binary_search fuel cmp key values num_elems elem_sz).result = .found p →
      ∃ m, m ∈ (binary_search fuel cmp key values num_elems elem_sz).probes ∧
        p = elem_ptr values m elem_sz) ∧
    (num_elems * elem_sz < SIZE_MOD →
      (∀ m ∈ (binary_search fuel cmp key values num_elems elem_sz).probes,
        m.toNat < num_elems ∧
        elem_ptr values m elem_sz = elem_addr values m.toNat elem_sz ∧
        values ≤ elem_ptr values m elem_sz ∧
        elem_ptr values m elem_sz + elem_sz ≤ values + num_elems * elem_sz) ∧
      (∀ p, (binary_search fuel cmp key values num_elems elem_sz).result = .found p →
        ∃ i, i < num_elems ∧ p = elem_addr values i elem_sz)) := by
  simp only [INT_MAX] at hn
  have hhigh := init_high_eq hn
  have hb : binary_search fuel cmp key values num_elems elem_sz =
      search_loop cmp key values elem_sz fuel 0 ((num_elems : Int) - 1) := by
    unfold binary_search
    simp only [hhigh]
  rw [hb]
  obtain ⟨hp, hq⟩ := search_loop_in_range cmp key values elem_sz fuel 0
    ((num_elems : Int) - 1) (le_refl 0) (by omega) (by omega)
  have hfound : ∀ p, (search_loop cmp key values elem_sz fuel 0
      ((num_elems : Int) - 1)).result = .found p →
      ∃ m, m ∈ (search_loop cmp key values elem_sz fuel 0 ((num_elems : Int) - 1)).probes ∧
        p = elem_ptr values m elem_sz := by
    intro p h
    obtain ⟨init, m, e, hpm, _, _⟩ := search_loop_found cmp key values elem_sz fuel 0 _ p h
    exact ⟨m, by rw [e]; simp, hpm⟩
  refine ⟨?_, ?_, hfound, ?_⟩
  · intro m hm
    have := hp m hm
    omega
  · intro q hmem
    have := hq q hmem
    omega
  · intro hfit
    simp only [SIZE_MOD] at hfit
    have haddr : ∀ m ∈ (search_loop cmp key values elem_sz fuel 0
        ((num_elems : Int) - 1)).probes,
        m.toNat < num_elems ∧
        elem_ptr values m elem_sz = elem_addr values m.toNat elem_sz := by
      intro m hm
      have := hp m hm
      exact ⟨by omega, elem_ptr_eq_addr (by omega) (by omega) hfit⟩
    constructor
    · intro m hm
      obtain ⟨hlt, e⟩ := haddr m hm
      refine ⟨hlt, e, ?_, ?_⟩
      · rw [e]; unfold elem_addr; omega
      · rw [e]
        unfold elem_addr
        have : (m.toNat + 1) * elem_sz ≤ num_elems * elem_sz :=
          Nat.mul_le_mul_right elem_sz hlt
        rw [Nat.add_mul, Nat.one_mul] at this
        omega
    · intro p h
      obtain ⟨m, hm, e⟩ := hfound p h
      obtain ⟨hlt, e'⟩ := haddr m hm
      exact ⟨m.toNat, hlt, by rw [e, e']⟩

/-- C9 at the search for `keys[3] = 19` in `main`: the probes are at indices
`2`, `3`, `4`. -/
theorem binary_search_in_bounds_witness :
    (binary_search 6 (int_cmp main_mem) (keys_addr + 4 * 3) array_addr 5 4).probes =
      [2, 3, 4] ∧
    ∀ m ∈ (binary_search 6 (int_cmp main_mem) (keys_addr + 4 * 3) array_addr 5 4).probes,
      0 ≤ m ∧ m < ((5 : Nat) : Int) :=
  ⟨by decide,
    (binary_search_in_bounds 6 (int_cmp main_mem) (keys_addr + 4 * 3) array_addr 5 4
      (by decide)).1⟩

/-! ## C10: duplicates -/

/-- C10: a pointer returned by `binary_search` is always the one computed at
the last probe of the halving path, the comparator returned `0` there and at
no earlier probe.  It need be neither the first nor the last occurrence: in
the sorted array `{ 7, 7, 7 }` searched for `7` under `int_cmp`, every element
compares equal to the key and the element returned is the one at index `1`,
after a single probe. -/
theorem binary_search_first_hit_on_path (fuel : Nat) (cmp : Nat → Nat → Int)
    (key values num_elems elem_sz p : Nat)
    (h : (binary_search fuel cmp key values num_elems elem_sz).result = .found p) :
    (∃ init m, (binary_search fuel cmp key values num_elems elem_sz).probes = init ++ [m] ∧
      p = elem_ptr values m elem_sz ∧ cmp key (elem_ptr values m elem_sz) = 0 ∧
      ∀ m' ∈ init, cmp key (elem_ptr values m' elem_sz) ≠ 0) ∧
    (SortedPer (int_cmp dup_mem) array_addr 3 4 ∧
      (∀ i, i < 3 → int_cmp dup_mem keys_addr (elem_addr array_addr i 4) = 0) ∧
      (∀ f, 0 < f → binary_search f (int_cmp dup_mem) keys_addr array_addr 3 4 =
        { result := .found (elem_addr array_addr 1 4), probes := [1], bounds := [(0, 2)] }) ∧
      elem_addr array_addr 0 4 < elem_addr array_addr 1 4 ∧
      elem_addr array_addr 1 4 < elem_addr array_addr 2 4) := by
  refine ⟨search_loop_found cmp key values elem_sz fuel _ _ p h, ?_, ?_, ?_, by decide,
    by decide⟩
  · intro i j hij hj
    have hi : i < 3 := by omega
    interval_cases j <;> interval_cases i <;> first | omega | decide
  · intro i hi
    interval_cases i <;> decide
  · intro f hf
    rw [binary_search_fuel_mono (int_cmp dup_mem) keys_addr array_addr 3 4 1 f (by decide)
      (by omega)]
    decide

/-- C10 at the array `{ 7, 7, 7 }`: the element returned is the middle one. -/
theorem binary_search_first_hit_on_path_witness :
    ∃ init m, (binary_search 4 (int_cmp dup_mem) keys_addr array_addr 3 4).probes =
        init ++ [m] ∧
      elem_addr array_addr 1 4 = elem_ptr array_addr m 4 ∧
      int_cmp dup_mem keys_addr (elem_ptr array_addr m 4) = 0 ∧
      ∀ m' ∈ init, int_cmp dup_mem keys_addr (elem_ptr array_addr m' 4) ≠ 0 :=
  (binary_search_first_hit_on_path 4 (int_cmp dup_mem) keys_addr array_addr 3 4
    (elem_addr array_addr 1 4) (by decide)).1

/-! ## C11: termination -/

/-- The first bounds recorded by a run of the loop are the ones it was started
with. -/
theorem search_loop_bounds_head (cmp : Nat → Nat → Int) (key base sz fuel : Nat)
    (low high : Int) :
    ∀ q ∈ (search_loop cmp key base sz fuel low high).bounds.head?, q = (low, high) := by
  rcases search_loop_cases cmp key base sz fuel low high with
    ⟨_, e⟩ | ⟨_, e⟩ | ⟨_, _, e⟩ | ⟨f, _, _, _, e⟩ | ⟨f, _, _, _, e⟩ <;>
  · rw [e]
    intro q hq
    simp only [Trace.step, List.head?_cons, List.head?_nil, Option.mem_def,
      Option.some.injEq] at hq
    first
      | exact hq.symm
      | exact absurd hq (by simp)

/-- From `0 ≤ low` and `high < INT_MAX` on, every iteration that does not
return strictly decreases `high - low`. -/
theorem search_loop_shrinks (cmp : Nat → Nat → Int) (key base sz : Nat) :
    ∀ (fuel : Nat) (low high : Int), 0 ≤ low → high < 2147483647 →
    List.Chain' (fun a b : Int × Int => b.2 - b.1 < a.2 - a.1)
      (search_loop cmp key base sz fuel low high).bounds := by
  intro fuel
  induction fuel with
  | zero => intro low high _ _; simp [search_loop]
  | succ f ih =>
    intro low high h0 h1
    rcases search_loop_cases cmp key base sz (f + 1) low high with
      ⟨hf, _⟩ | ⟨_, e⟩ | ⟨_, _, e⟩ | ⟨f', hf, hl, _, e⟩ | ⟨f', hf, hl, _, e⟩
    · omega
    · rw [e]; exact List.chain'_singleton _
    · rw [e]; exact List.chain'_singleton _
    · obtain rfl : f' = f := by omega
      obtain ⟨_, hm1, hm2⟩ := midpoint_spec h0 hl (by omega)
      have hw : wrapInt (midpoint low high + 1) = midpoint low high + 1 :=
        wrapInt_of_inRange (by omega) (by omega)
      rw [e, hw]
      simp only [Trace.step]
      refine List.chain'_cons'.2 ⟨?_, ih _ _ (by omega) h1⟩
      intro q hq
      rw [search_loop_bounds_head cmp key base sz _ _ _ q hq]
      simp only
      omega
    · obtain rfl : f' = f := by omega
      obtain ⟨_, hm1, hm2⟩ := midpoint_spec h0 hl (by omega)
      have hw : wrapInt (midpoint low high - 1) = midpoint low high - 1 :=
        wrapInt_of_inRange (by omega) (by omega)
      rw [e, hw]
      simp only [Trace.step]
      refine List.chain'_cons'.2 ⟨?_, ih _ _ h0 (by omega)⟩
      intro q hq
      rw [search_loop_bounds_head cmp key base sz _ _ _ q hq]
      simp only
      omega

/-- With `high = INT_MAX` and a comparator that answers "greater" at every
probe, the loop never returns. -/
theorem search_loop_runs_on (cmp : Nat → Nat → Int) (key base sz : Nat)
    (hgt : ∀ mid : Int, 0 < cmp key (elem_ptr base mid sz)) :
    ∀ (fuel : Nat) (low : Int), low ≤ 2147483647 →
    (search_loop cmp key base sz fuel low 2147483647).result = .out_of_fuel := by
  intro fuel
  induction fuel with
  | zero => intro low _; rfl
  | succ f ih =>
    intro low hl
    rw [search_loop_right cmp key base sz f hl (hgt _)]
    exact ih _ (wrapInt_range _).2

/-- C11, as stated, fails for `num_elems = 2^31`: searching a sorted array of
`2^31` zeros for the key `1`, the iteration at `(low, high) = (INT_MAX, INT_MAX)`
sets `low = mid + 1`, which wraps to `INT_MIN`, so `high - low` grows from `0`
to `2^32 - 1`, and the loop returns with no amount of fuel. -/
theorem binary_search_endless :
    SortedPer (int_cmp zeros_mem) 4096 2147483648 4 ∧
    (binary_search 40 (int_cmp zeros_mem) 0 4096 2147483648 4).bounds.get? 31 =
      some (2147483647, 2147483647) ∧
    (binary_search 40 (int_cmp zeros_mem) 0 4096 2147483648 4).bounds.get? 32 =
      some (-2147483648, 2147483647) ∧
    (∀ fuel, (binary_search fuel (int_cmp zeros_mem) 0 4096 2147483648 4).result =
      .out_of_fuel) := by
  have hz : ∀ a : Nat, 4096 ≤ a → zeros_mem a = 0 := by
    intro a ha
    unfold zeros_mem
    rw [if_neg (by omega)]
  refine ⟨?_, by decide, by decide, ?_⟩
  · intro i j _ _
    have h := int_cmp_cases zeros_mem (elem_addr 4096 i 4) (elem_addr 4096 j 4)
    have hi := hz (elem_addr 4096 i 4) (by unfold elem_addr; omega)
    have hj := hz (elem_addr 4096 j 4) (by unfold elem_addr; omega)
    omega
  · intro fuel
    have hh : wrapInt (wrapSize (((2147483648 : Nat) : Int) - 1)) = 2147483647 := by decide
    unfold binary_search
    simp only [hh]
    refine search_loop_runs_on (int_cmp zeros_mem) 0 4096 4 ?_ fuel 0 (by decide)
    intro mid
    have h := int_cmp_cases zeros_mem 0 (elem_ptr 4096 mid 4)
    have h0 : zeros_mem 0 = 1 := by decide
    have hp := hz (elem_ptr 4096 mid 4) (by unfold elem_ptr; omega)
    omega

/-- C11 (amended): whenever the initial `high` (`num_elems - 1` converted to
`int`) is below `INT_MAX`, in particular for every `num_elems ≤ INT_MAX`, for
every sequence and every comparator (sorted input or not, consistent
comparator or not), each loop iteration that does not return strictly
decreases `high - low`, the loop condition is evaluated at most
`num_elems + 1` times, and with more than `num_elems` units of fuel
`binary_search` returns. -/
theorem binary_search_terminates (fuel : Nat) (cmp : Nat → Nat → Int)
    (key values num_elems elem_sz : Nat)
    (h : wrapInt (wrapSize ((num_elems : Int) - 1)) < INT_MAX) :
    List.Chain' (fun a b : Int × Int => b.2 - b.1 < a.2 - a.1)
      (binary_search fuel cmp key values num_elems elem_sz).bounds ∧
    (num_elems < fuel →
      (binary_search fuel cmp key values num_elems elem_sz).result ≠ .out_of_fuel ∧
      ∀ fuel', fuel ≤ fuel' →
        binary_search fuel' cmp key values num_elems elem_sz =
          binary_search fuel cmp key values num_elems elem_sz) := by
  simp only [INT_MAX] at h
  have hle := init_high_le num_elems
  have hret : num_elems < fuel →
      (binary_search fuel cmp key values num_elems elem_sz).result ≠ .out_of_fuel := by
    intro hf
    unfold binary_search
    exact search_loop_returns cmp key values elem_sz fuel 0 _ (le_refl 0) h (by omega)
  refine ⟨?_, fun hf => ⟨hret hf, fun fuel' hle' =>
    binary_search_fuel_mono cmp key values num_elems elem_sz fuel fuel' (hret hf) hle'⟩⟩
  unfold binary_search
  exact search_loop_shrinks cmp key values elem_sz fuel 0 _ (le_refl 0) h

/-- C11 at the search for `keys[3] = 19` in `main`: the search has returned
with six units of fuel. -/
theorem binary_search_terminates_witness :
    (binary_search 6 (int_cmp main_mem) (keys_addr + 4 * 3) array_addr 5 4).result ≠
      .out_of_fuel :=
  ((binary_search_terminates 6 (int_cmp main_mem) (keys_addr + 4 * 3) array_addr 5 4
    (by decide)).2 (by decide)).1

/-! ## C12: soundness without sortedness -/

/-- C12, as stated, fails for `num_elems = 2^31`: searching an array of `2^31`
zeros at `4096` for the key `1`, the 33rd probe is at `mid = INT_MIN`, after
`low` has wrapped, and the pointer returned is the address `2^64 - 2^33 + 4096`
of the key itself, which is the address of no element of the array. -/
theorem binary_search_wild_result :
    2147483648 * 4 < SIZE_MOD ∧
    (binary_search 40 (int_cmp high_key_mem) 18446744065119621120 4096 2147483648 4).probes.get?
      32 = some (-2147483648) ∧
    elem_ptr 4096 (-2147483648) 4 = 18446744065119621120 ∧
    (binary_search 40 (int_cmp high_key_mem) 18446744065119621120 4096 2147483648 4).result =
      .found 18446744065119621120 ∧
    (∀ i, i < 2147483648 → elem_addr 4096 i 4 ≠ 18446744065119621120) := by
  refine ⟨by decide, by decide, by decide, by decide, ?_⟩
  intro i hi
  unfold elem_addr
  omega

/-- C12 (amended): for every sequence of `num_elems ≤ INT_MAX` elements that
fits in the address space (sorted or not), every key and every comparator,
a non-`NULL` result of `binary_search` is the reference to an element `A[i]`
with `0 ≤ i < num_elems` and `cmp(key, A[i]) == 0`.  An unsorted input can
make a present key be missed: in `{ 9, 1, 2 }` the key `9` occurs at index `0`
and the search returns `NULL`. -/
theorem binary_search_sound (fuel : Nat) (cmp : Nat → Nat → Int)
    (key values num_elems elem_sz p : Nat) (hn : (num_elems : Int) ≤ INT_MAX)
    (hfit : num_elems * elem_sz < SIZE_MOD)
    (h : (binary_search fuel cmp key values num_elems elem_sz).result = .found p) :
    (∃ i, i < num_elems ∧ p = elem_addr values i elem_sz ∧
      cmp key (elem_addr values i elem_sz) = 0) ∧
    (int_cmp unsorted_mem keys_addr (elem_addr array_addr 0 4) = 0 ∧
      ¬ SortedPer (int_cmp unsorted_mem) array_addr 3 4 ∧
      ∀ f, 3 < f →
        (binary_search f (int_cmp unsorted_mem) keys_addr array_addr 3 4).result =
          .not_found) := by
  simp only [INT_MAX] at hn
  simp only [SIZE_MOD] at hfit
  have hhigh := init_high_eq hn
  have hb : binary_search fuel cmp key values num_elems elem_sz =
      search_loop cmp key values elem_sz fuel 0 ((num_elems : Int) - 1) := by
    unfold binary_search
    simp only [hhigh]
  rw [hb] at h
  obtain ⟨init, m, e, hpm, hz, _⟩ := search_loop_found cmp key values elem_sz fuel 0 _ p h
  have hmem : m ∈ (search_loop cmp key values elem_sz fuel 0 ((num_elems : Int) - 1)).probes := by
    rw [e]; simp
  have hr := (search_loop_in_range cmp key values elem_sz fuel 0 ((num_elems : Int) - 1)
    (le_refl 0) (by omega) (by omega)).1 m hmem
  have ha : elem_ptr values m elem_sz = elem_addr values m.toNat elem_sz :=
    elem_ptr_eq_addr (by omega) (by omega) hfit
  refine ⟨⟨m.toNat, by omega, by rw [hpm, ha], by rw [← ha]; exact hz⟩, by decide, ?_, ?_⟩
  · intro hs
    have := hs 0 1 (by decide) (by decide)
    revert this
    decide
  · intro f hf
    rw [binary_search_fuel_mono (int_cmp unsorted_mem) keys_addr array_addr 3 4 4 f
      (by decide) (by omega)]
    decide

/-- C12 at the search for `keys[2] = 7` in `main`: the pointer returned is the
address of an element that compares equal to the key. -/
theorem binary_search_sound_witness :
    ∃ i, i < 5 ∧ elem_addr array_addr 2 4 = elem_addr array_addr i 4 ∧
      int_cmp main_mem (keys_addr + 4 * 2) (elem_addr array_addr i 4) = 0 :=
  (binary_search_sound 6 (int_cmp main_mem) (keys_addr + 4 * 2) array_addr 5 4
    (elem_addr array_addr 2 4) (by decide) (by decide) (by decide)).1

/-! ## C13: the search-range invariant -/

/-- On a range `[A, B]` over which the comparator's verdict on the key is
monotone, the loop keeps every index below `low` "greater" and every index
above `high` "less". -/
theorem search_loop_invariant (cmp : Nat → Nat → Int) (key base sz : Nat) (A B : Int)
    (hmono : ∀ i j : Int, A ≤ i → i ≤ j → j ≤ B →
      (cmp key (elem_ptr base i sz) < 0 → cmp key (elem_ptr base j sz) < 0) ∧
      (0 < cmp key (elem_ptr base j sz) → 0 < cmp key (elem_ptr base i sz))) :
    ∀ (fuel : Nat) (low high : Int), 0 ≤ low → high < 2147483647 → A ≤ low → high ≤ B →
    (∀ m, A ≤ m → m < low → 0 < cmp key (elem_ptr base m sz)) →
    (∀ m, high < m → m ≤ B → cmp key (elem_ptr base m sz) < 0) →
    ∀ q ∈ (search_loop cmp key base sz fuel low high).bounds,
      (∀ m, A ≤ m → m < q.1 → 0 < cmp key (elem_ptr base m sz)) ∧
      (∀ m, q.2 < m → m ≤ B → cmp key (elem_ptr base m sz) < 0) := by
  intro fuel
  induction fuel with
  | zero => intro low high _ _ _ _ _ _; simp [search_loop]
  | succ f ih =>
    intro low high h0 h1 hA hB hlo hhi
    rcases search_loop_cases cmp key base sz (f + 1) low high with
      ⟨hf, _⟩ | ⟨_, e⟩ | ⟨_, _, e⟩ | ⟨f', hf, hl, hc, e⟩ | ⟨f', hf, hl, hc, e⟩
    · omega
    · rw [e]
      intro q hq
      simp only [List.mem_singleton] at hq
      subst hq
      exact ⟨hlo, hhi⟩
    · rw [e]
      intro q hq
      simp only [List.mem_singleton] at hq
      subst hq
      exact ⟨hlo, hhi⟩
    · obtain rfl : f' = f := by omega
      obtain ⟨_, hm1, hm2⟩ := midpoint_spec h0 hl (by omega)
      have hw : wrapInt (midpoint low high + 1) = midpoint low high + 1 :=
        wrapInt_of_inRange (by omega) (by omega)
      rw [e, hw]
      intro q hq
      simp only [Trace.step, List.mem_cons] at hq
      rcases hq with rfl | hq
      · exact ⟨hlo, hhi⟩
      · refine ih _ _ (by omega) h1 (by omega) hB ?_ hhi q hq
        intro m a b
        exact (hmono m (midpoint low high) a (by omega) (by omega)).2 hc
    · obtain rfl : f' = f := by omega
      obtain ⟨_, hm1, hm2⟩ := midpoint_spec h0 hl (by omega)
      have hw : wrapInt (midpoint low high - 1) = midpoint low high - 1 :=
        wrapInt_of_inRange (by omega) (by omega)
      rw [e, hw]
      intro q hq
      simp only [Trace.step, List.mem_cons] at hq
      rcases hq with rfl | hq
      · exact ⟨hlo, hhi⟩
      · refine ih _ _ h0 (by omega) hA (by omega) hlo ?_ q hq
        intro m a b
        exact (hmono (midpoint low high) m (by omega) (by omega) b).1 hc

/-- C13, as stated, fails on an array of `2^31 + 1` elements: the initial
`high` is `INT_MIN`, so at the only evaluation of the loop condition the
element at index `0` lies above `high`, yet in a sorted array of zeros searched
for `0` it compares equal to the key, not "less". -/
theorem binary_search_invariant_broken :
    SortedPer (int_cmp (fun _ => 0)) 4096 2147483649 4 ∧
    (binary_search 2147483650 (int_cmp (fun _ => 0)) 0 4096 2147483649 4).bounds =
      [(0, -2147483648)] ∧
    (0 : Nat) < 2147483649 ∧ (-2147483648 : Int) < ((0 : Nat) : Int) ∧
    ¬ int_cmp (fun _ => 0) 0 (elem_addr 4096 0 4) < 0 := by
  refine ⟨?_, by decide, by decide, by decide, by decide⟩
  intro i j _ _
  have h := int_cmp_cases (fun _ => 0) (elem_addr 4096 i 4) (elem_addr 4096 j 4)
  omega

/-- C13 (amended): for every sequence of `num_elems ≤ INT_MAX` elements that
fits in the address space and is sorted ascending per a comparator that keeps
the comparator contract, and for every key, at every evaluation of the loop
condition in `binary_search` every element at an index below `low` satisfies
`cmp(key, A[i]) > 0` and every element at an index above `high` satisfies
`cmp(key, A[i]) < 0`; hence every element comparing equal to the key lies at an
index in `[low, high]`. -/
theorem binary_search_range_invariant (cmp : Nat → Nat → Int) (D : Nat → Prop)
    (key values num_elems elem_sz fuel : Nat)
    (hc : Contract cmp D) (hk : D key)
    (hd : ∀ i, i < num_elems → D (elem_addr values i elem_sz))
    (hs : SortedPer cmp values num_elems elem_sz)
    (hn : (num_elems : Int) ≤ INT_MAX) (hfit : num_elems * elem_sz < SIZE_MOD) :
    ∀ q ∈ (binary_search fuel cmp key values num_elems elem_sz).bounds,
      (∀ i, i < num_elems → (i : Int) < q.1 → 0 < cmp key (elem_addr values i elem_sz)) ∧
      (∀ i, i < num_elems → q.2 < (i : Int) → cmp key (elem_addr values i elem_sz) < 0) ∧
      (∀ i, i < num_elems → cmp key (elem_addr values i elem_sz) = 0 →
        q.1 ≤ (i : Int) ∧ (i : Int) ≤ q.2) := by
  simp only [INT_MAX] at hn
  simp only [SIZE_MOD] at hfit
  have hhigh := init_high_eq hn
  have hb : binary_search fuel cmp key values num_elems elem_sz =
      search_loop cmp key values elem_sz fuel 0 ((num_elems : Int) - 1) := by
    unfold binary_search
    simp only [hhigh]
  rw [hb]
  have hptr : ∀ m : Int, 0 ≤ m → m ≤ (num_elems : Int) - 1 →
      elem_ptr values m elem_sz = elem_addr values m.toNat elem_sz ∧ m.toNat < num_elems :=
    fun m a b => ⟨elem_ptr_eq_addr a (by omega) hfit, by omega⟩
  have hinv := search_loop_invariant cmp key values elem_sz 0 ((num_elems : Int) - 1)
    (by
      intro i j hi hij hj
      rw [(hptr i hi (by omega)).1, (hptr j (by omega) hj).1]
      exact sorted_monotone hc hk hd hs (by omega) (hptr j (by omega) hj).2)
    fuel 0 ((num_elems : Int) - 1) (le_refl 0) (by omega) (le_refl 0) (le_refl _)
    (fun m a b => absurd a (by omega)) (fun m a b => absurd a (by omega))
  intro q hq
  obtain ⟨hlo, hhi⟩ := hinv q hq
  have hidx : ∀ i : Nat, i < num_elems →
      elem_ptr values (i : Int) elem_sz = elem_addr values i elem_sz := by
    intro i hi
    have := (hptr (i : Int) (by omega) (by omega)).1
    rwa [Int.toNat_ofNat] at this
  have h1 : ∀ i, i < num_elems → (i : Int) < q.1 →
      0 < cmp key (elem_addr values i elem_sz) := by
    intro i hi hlt
    rw [← hidx i hi]
    exact hlo (i : Int) (by omega) hlt
  have h2 : ∀ i, i < num_elems → q.2 < (i : Int) →
      cmp key (elem_addr values i elem_sz) < 0 := by
    intro i hi hlt
    rw [← hidx i hi]
    exact hhi (i : Int) hlt (by omega)
  refine ⟨h1, h2, ?_⟩
  intro i hi hz
  constructor
  · by_contra hcon
    have := h1 i hi (by omega)
    omega
  · by_contra hcon
    have := h2 i hi (by omega)
    omega

/-- C13 at the search for `keys[3] = 19` in `main`, whose loop condition is
evaluated at `(0, 4)`, `(3, 4)`, `(4, 4)` and `(4, 3)`. -/
theorem binary_search_range_invariant_witness :
    (binary_search 6 (int_cmp main_mem) (keys_addr + 4 * 3) array_addr 5 4).bounds =
      [(0, 4), (3, 4), (4, 4), (4, 3)] ∧
    ∀ q ∈ (binary_search 6 (int_cmp main_mem) (keys_addr + 4 * 3) array_addr 5 4).bounds,
      (∀ i : Nat, i < 5 → (i : Int) < q.1 →
        0 < int_cmp main_mem (keys_addr + 4 * 3) (elem_addr array_addr i 4)) ∧
      (∀ i : Nat, i < 5 → q.2 < (i : Int) →
        int_cmp main_mem (keys_addr + 4 * 3) (elem_addr array_addr i 4) < 0) ∧
      (∀ i : Nat, i < 5 → int_cmp main_mem (keys_addr + 4 * 3) (elem_addr array_addr i 4) = 0 →
        q.1 ≤ (i : Int) ∧ (i : Int) ≤ q.2) :=
  ⟨by decide,
    binary_search_range_invariant (int_cmp main_mem) (fun _ => True) (keys_addr + 4 * 3)
      array_addr 5 4 6 (int_cmp_contract main_mem) trivial (fun _ _ => trivial)
      main_array_sorted (by decide) (by decide)⟩

/-! ## C14: no wrap-around for counts that fit in `int` -/

/-- Inside an array of at most `INT_MAX` elements that fits in the address
space, the loop of the code and the loop of the specification have the same
history. -/
theorem search_loop_eq_spec (cmp : Nat → Nat → Int) (key base sz n : Nat)
    (hn : (n : Int) ≤ 2147483647) (hfit : n * sz < 18446744073709551616) :
    ∀ (fuel : Nat) (low high : Int), 0 ≤ low → high < n →
    search_loop cmp key base sz fuel low high =
      spec_search_loop cmp key base sz fuel low high := by
  intro fuel
  induction fuel with
  | zero => intro low high _ _; rfl
  | succ f ih =>
    intro low high h0 h1
    by_cases hl : low ≤ high
    · obtain ⟨hm, hm1, hm2⟩ := midpoint_spec h0 hl (by omega)
      have hM : low + (high - low) / 2 = midpoint low high := by omega
      have hP : elem_addr base (midpoint low high).toNat sz =
          elem_ptr base (midpoint low high) sz :=
        (elem_ptr_eq_addr (by omega) (by omega) hfit).symm
      rcases lt_trichotomy (cmp key (elem_ptr base (midpoint low high) sz)) 0 with hc | hc | hc
      · have hne : ¬ cmp key (elem_ptr base (midpoint low high) sz) = 0 := by omega
        have hgt : ¬ cmp key (elem_ptr base (midpoint low high) sz) > 0 := by omega
        have hw : wrapInt (midpoint low high - 1) = midpoint low high - 1 :=
          wrapInt_of_inRange (by omega) (by omega)
        rw [search_loop_left cmp key base sz f hl hc, hw, ih _ _ h0 (by omega)]
        simp only [spec_search_loop, hM, hP, if_pos hl, if_neg hne, if_neg hgt]
      · rw [search_loop_hit cmp key base sz f hl hc]
        simp only [spec_search_loop, hM, hP, if_pos hl, if_pos hc]
      · have hne : ¬ cmp key (elem_ptr base (midpoint low high) sz) = 0 := by omega
        have hgt : cmp key (elem_ptr base (midpoint low high) sz) > 0 := hc
        have hw : wrapInt (midpoint low high + 1) = midpoint low high + 1 :=
          wrapInt_of_inRange (by omega) (by omega)
        rw [search_loop_right cmp key base sz f hl hc, hw, ih _ _ (by omega) h1]
        simp only [spec_search_loop, hM, hP, if_pos hl, if_neg hne, if_pos hgt]
    · rw [search_loop_exit cmp key base sz f hl]
      simp only [spec_search_loop, if_neg hl]

/-- C14: for every `num_elems ≤ INT_MAX` and every `elem_sz` with
`num_elems * elem_sz < 2^64`, the conversion of the `size_t` value
`num_elems - 1` to `int` yields exactly `num_elems - 1`; at every iteration
the differences and sums of the midpoint and the updates `mid + 1` and
`mid - 1` lie in the `int` range, and the `size_t` byte offset
`mid * elem_sz` is the mathematical product; and the run of `binary_search` is,
probe for probe, the run of the algorithm of the specification over unbounded
integers. -/
theorem binary_search_no_wrap (fuel : Nat) (cmp : Nat → Nat → Int)
    (key values num_elems elem_sz : Nat) (hn : (num_elems : Int) ≤ INT_MAX)
    (hfit : num_elems * elem_sz < SIZE_MOD) :
    wrapInt (wrapSize ((num_elems : Int) - 1)) = (num_elems : Int) - 1 ∧
    (∀ q ∈ (binary_search fuel cmp key values num_elems elem_sz).bounds, q.1 ≤ q.2 →
      InIntRange (q.2 - q.1) ∧
      InIntRange (q.1 + (q.2 - q.1).tdiv 2) ∧
      midpoint q.1 q.2 = q.1 + (q.2 - q.1) / 2 ∧
      InIntRange (midpoint q.1 q.2 + 1) ∧
      wrapInt (midpoint q.1 q.2 + 1) = midpoint q.1 q.2 + 1 ∧
      InIntRange (midpoint q.1 q.2 - 1) ∧
      wrapInt (midpoint q.1 q.2 - 1) = midpoint q.1 q.2 - 1 ∧
      0 ≤ midpoint q.1 q.2 ∧
      wrapSize ((wrapSize (midpoint q.1 q.2) : Int) * (elem_sz : Int)) =
        (midpoint q.1 q.2).toNat * elem_sz ∧
      (midpoint q.1 q.2).toNat * elem_sz < SIZE_MOD) ∧
    binary_search fuel cmp key values num_elems elem_sz =
      spec_search fuel cmp key values num_elems elem_sz := by
  simp only [INT_MAX] at hn
  have hfit' : num_elems * elem_sz < 18446744073709551616 := hfit
  have hhigh := init_high_eq hn
  have hb : binary_search fuel cmp key values num_elems elem_sz =
      search_loop cmp key values elem_sz fuel 0 ((num_elems : Int) - 1) := by
    unfold binary_search
    simp only [hhigh]
  refine ⟨hhigh, ?_, ?_⟩
  · rw [hb]
    intro q hq hle
    have hr := (search_loop_in_range cmp key values elem_sz fuel 0 ((num_elems : Int) - 1)
      (le_refl 0) (by omega) (by omega)).2 q hq
    obtain ⟨hm, hm1, hm2⟩ := midpoint_spec (by omega : 0 ≤ q.1) hle (by omega)
    have ht : (q.2 - q.1).tdiv 2 = (q.2 - q.1) / 2 :=
      Int.tdiv_eq_ediv (by omega) (by decide)
    have hoff := @elem_ptr_eq_addr 0 elem_sz num_elems (midpoint q.1 q.2) (by omega)
      (by omega) hfit'
    simp only [elem_ptr, elem_addr, Nat.zero_add] at hoff
    have hlt : (midpoint q.1 q.2).toNat * elem_sz < 18446744073709551616 :=
      lt_of_le_of_lt (Nat.mul_le_mul_right elem_sz (by omega)) hfit'
    refine ⟨?_, ?_, by omega, ?_, wrapInt_of_inRange (by omega) (by omega), ?_,
      wrapInt_of_inRange (by omega) (by omega), by omega, hoff, hlt⟩
    · unfold InIntRange INT_MIN INT_MAX; omega
    · rw [ht]; unfold InIntRange INT_MIN INT_MAX; omega
    · unfold InIntRange INT_MIN INT_MAX; omega
    · unfold InIntRange INT_MIN INT_MAX; omega
  · rw [hb]
    exact search_loop_eq_spec cmp key values elem_sz num_elems hn hfit' fuel 0 _ (le_refl 0)
      (by omega)

/-- C14 at the search for `keys[3] = 19` in `main`. -/
theorem binary_search_no_wrap_witness :
    binary_search 6 (int_cmp main_mem) (keys_addr + 4 * 3) array_addr 5 4 =
      spec_search 6 (int_cmp main_mem) (keys_addr + 4 * 3) array_addr 5 4 :=
  (binary_search_no_wrap 6 (int_cmp main_mem) (keys_addr + 4 * 3) array_addr 5 4
    (by decide) (by decide)).2.2

end BinarySearch

namespace PointersUnions

open BinarySearch (wrapInt wrapSize INT_MAX SIZE_MOD wrapInt_of_inRange)

/-! ## C15: printing by pointer and by index -/

/-- The separator loop of `String.intercalate` commutes with a text put in
front. -/
theorem intercalate_go_shift (pre sep : String) :
    ∀ (l : List String) (acc : String),
      String.intercalate.go (pre ++ acc) sep l = pre ++ String.intercalate.go acc sep l := by
  intro l
  induction l with
  | nil => intro acc; rfl
  | cons a l ih =>
    intro acc
    simp only [String.intercalate.go]
    rw [← ih, String.append_assoc, String.append_assoc, String.append_assoc]

/-- Moving a pointer by `k` cells inside the address space. -/
theorem ptr_add_eq {p : Nat} {k : Int} (h0 : 0 ≤ (p : Int) + 4 * k)
    (h1 : (p : Int) + 4 * k < 18446744073709551616) :
    ((ptr_add p k : Nat) : Int) = (p : Int) + 4 * k := by
  unfold ptr_add wrapSize
  omega

/-- The loop of `print_array_pt` writes the `k` cells from `array` up to `end`. -/
theorem print_array_pt_loop_spec (mem : Nat → Int) (end_ptr : Nat)
    (hend : end_ptr < 18446744073709551616) :
    ∀ (k fuel array : Nat) (out : String),
      (k = 0 → end_ptr ≤ array) → (0 < k → end_ptr = array + 4 * k) → k < fuel →
      print_array_pt_loop mem fuel array end_ptr out =
        { text := String.intercalate.go out ", "
            ((List.range k).map (fun j => toString (mem (array + 4 * j)))),
          returned := true } := by
  intro k
  induction k with
  | zero =>
    intro fuel array out h0 _ hf
    obtain ⟨f, rfl⟩ := Nat.exists_eq_succ_of_ne_zero (by omega : fuel ≠ 0)
    have : ¬ array < end_ptr := by have := h0 rfl; omega
    simp only [print_array_pt_loop, if_neg this, List.range_zero, List.map_nil,
      String.intercalate.go]
  | succ k ih =>
    intro fuel array out _ h1 hf
    obtain ⟨f, rfl⟩ := Nat.exists_eq_succ_of_ne_zero (by omega : fuel ≠ 0)
    have he := h1 (by omega)
    have hlt : array < end_ptr := by omega
    have hp : ptr_add array 1 = array + 4 := by
      have := @ptr_add_eq array 1 (by omega) (by omega)
      omega
    simp only [print_array_pt_loop, if_pos hlt, hp]
    rw [ih f (array + 4) _ (by intro hk; subst hk; omega) (by intro _; omega) (by omega)]
    rw [List.range_succ_eq_map, List.map_cons, List.map_map]
    simp only [String.intercalate.go, Nat.mul_zero, Nat.add_zero]
    congr 3
    funext j
    simp only [Function.comp, Nat.succ_eq_add_one]
    congr 2
    omega

/-- The loop of `print_array` writes the cells with indices from `i` up to
`num_elements`. -/
theorem print_array_loop_spec (mem : Nat → Int) (array : Nat) (num_elements : Int)
    (hn : num_elements ≤ 2147483647)
    (hhi : (array : Int) + 4 * num_elements < 18446744073709551616) :
    ∀ (k fuel : Nat) (i : Int) (out : String), 0 ≤ i → (num_elements - i).toNat = k →
      k < fuel →
      print_array_loop mem array num_elements fuel i out =
        { text := String.intercalate.go out ", "
            ((List.range k).map (fun j => toString (mem (array + 4 * (i.toNat + j))))),
          returned := true } := by
  intro k
  induction k with
  | zero =>
    intro fuel i out _ hk hf
    obtain ⟨f, rfl⟩ := Nat.exists_eq_succ_of_ne_zero (by omega : fuel ≠ 0)
    have : ¬ i < num_elements := by omega
    simp only [print_array_loop, if_neg this, List.range_zero, List.map_nil,
      String.intercalate.go]
  | succ k ih =>
    intro fuel i out hi hk hf
    obtain ⟨f, rfl⟩ := Nat.exists_eq_succ_of_ne_zero (by omega : fuel ≠ 0)
    have hlt : i < num_elements := by omega
    have hw : wrapInt (i + 1) = i + 1 := wrapInt_of_inRange (by omega) (by omega)
    have ha : ptr_add array i = array + 4 * i.toNat := by
      have := @ptr_add_eq array i (by omega) (by omega)
      omega
    simp only [print_array_loop, if_pos hlt, hw, ha]
    rw [ih f (i + 1) _ (by omega) (by omega) (by omega)]
    rw [List.range_succ_eq_map, List.map_cons, List.map_map]
    simp only [String.intercalate.go, Nat.add_zero]
    congr 3
    funext j
    simp only [Function.comp, Nat.succ_eq_add_one]
    congr 2
    omega

/-- The text of a non-empty array, built from its first element on. -/
theorem array_text_succ (mem : Nat → Int) (array : Nat) (num_elements : Int) (m : Nat)
    (hm : num_elements.toNat = m + 1) :
    array_text mem array num_elements =
      String.intercalate.go ("[" ++ toString (mem array)) ", "
        ((List.range m).map (fun j => toString (mem (array + 4 * (1 + j))))) ++ "]" ++ "\n" := by
  unfold array_text
  rw [hm, List.range_succ_eq_map, List.map_cons, List.map_map]
  simp only [String.intercalate, Nat.mul_zero, Nat.add_zero]
  rw [intercalate_go_shift]
  congr 5
  funext j
  simp only [Function.comp, Nat.succ_eq_add_one]
  congr 2
  omega

/-- Whatever the loop of `print_array_pt` does, the text it was started with
stays in front. -/
theorem print_array_pt_loop_extends (mem : Nat → Int) (end_ptr : Nat) :
    ∀ (fuel array : Nat) (out : String),
      ∃ t, (print_array_pt_loop mem fuel array end_ptr out).text = out ++ t := by
  intro fuel
  induction fuel with
  | zero => intro array out; exact ⟨"", (String.append_empty out).symm⟩
  | succ f ih =>
    intro array out
    by_cases h : array < end_ptr
    · obtain ⟨t, ht⟩ := ih (ptr_add array 1) (out ++ ", " ++ toString (mem array))
      refine ⟨", " ++ toString (mem array) ++ t, ?_⟩
      simp only [print_array_pt_loop, if_pos h]
      rw [ht]
      simp only [String.append_assoc]
    · exact ⟨"", by simp only [print_array_pt_loop, if_neg h, String.append_empty]⟩

/-- A text that begins with `[, 0` is not `[]` and a newline. -/
theorem bracket_comma_ne (t : String) : "[, 0" ++ t ≠ "[]\n" := by
  intro h
  have hd := congrArg String.data h
  rw [String.data_append] at hd
  have h1 : "[, 0".data = ['[', ',', ' ', '0'] := rfl
  have h2 : "[]\n".data = ['[', ']', '\n'] := rfl
  rw [h1, h2] at hd
  simp at hd

/-- C15, as stated, fails for a negative count: with `array` at address `4096`
and `num_elements = -1024` the pointer `end = array + num_elements - 1` wraps to
`2^64 - 4`, so `array < end` holds and `print_array_pt` goes on printing the
cells of memory from `array` on (with four units of fuel it has written
`[, 0, 1, 2, 3` and has not returned), whereas `print_array` writes `[]` and a
newline; whatever the fuel, `print_array_pt` does not write that text. -/
theorem print_array_pt_negative_count :
    main_array_mem 4096 = 0 ∧
    ptr_add (ptr_add 4096 (-1024)) (-1) = 18446744073709551612 ∧
    print_array 1 main_array_mem 4096 (-1024) = { text := "[]\n", returned := true } ∧
    print_array_pt 4 main_array_mem 4096 (-1024) =
      { text := "[, 0, 1, 2, 3", returned := false } ∧
    (∀ fuel, print_array_pt fuel main_array_mem 4096 (-1024) ≠
      { text := "[]\n", returned := true }) := by
  refine ⟨by decide, by decide, by decide, by decide, ?_⟩
  intro fuel h
  cases fuel with
  | zero => revert h; decide
  | succ f =>
    have hend : ptr_add (ptr_add 4096 (-1024)) (-1) = 18446744073709551612 := by decide
    have hlt : 4096 < 18446744073709551612 := by decide
    have hm : toString (main_array_mem 4096) = "0" := by decide
    have e : "[" ++ ", " ++ "0" = "[, 0" := by decide
    obtain ⟨t, ht⟩ := print_array_pt_loop_extends main_array_mem 18446744073709551612 f
      (ptr_add 4096 1) "[, 0"
    have hstep : print_array_pt (f + 1) main_array_mem 4096 (-1024) =
        if (print_array_pt_loop main_array_mem f (ptr_add 4096 1) 18446744073709551612
            "[, 0").returned then
          { text := (print_array_pt_loop main_array_mem f (ptr_add 4096 1)
              18446744073709551612 "[, 0").text ++ "]" ++ "\n", returned := true }
        else print_array_pt_loop main_array_mem f (ptr_add 4096 1) 18446744073709551612
          "[, 0" := by
      simp only [print_array_pt, ge_iff_le, show ¬ (1 : Int) ≤ -1024 by decide, if_false,
        hend, print_array_pt_loop, if_pos hlt, hm, e]
    rw [hstep] at h
    have htext := congrArg Output.text h
    split_ifs at htext
    · simp only [ht, String.append_assoc] at htext
      exact bracket_comma_ne _ htext
    · rw [ht] at htext
      exact bracket_comma_ne _ htext

/-- C15 (amended): for every `int` array at a 64-bit address and every `int`
count `num_elements` for which the pointers `array + num_elements - 1` and
`array + num_elements` are addresses (`4 ≤ array + 4 * num_elements < 2^64`:
every count from `1` up to the length of an array in memory, `0` with any
non-null `int *`, and a negative count only when the array starts at least
`4 * (1 - num_elements)` bytes above address `0`), `print_array_pt` and
`print_array`, given more fuel than the count, return having written exactly
the same text: `[`, the first `num_elements` elements in index order as
decimals separated by `", "`, `]` and a newline; that is `[]` and a newline
when `num_elements <= 0`. -/
theorem print_array_pt_eq_print_array (fuel : Nat) (mem : Nat → Int) (array : Nat)
    (num_elements : Int) (hn : num_elements ≤ INT_MAX) (harr : array < SIZE_MOD)
    (hlo : 4 ≤ (array : Int) + 4 * num_elements)
    (hhi : (array : Int) + 4 * num_elements < SIZE_MOD)
    (hfuel : num_elements.toNat < fuel) :
    print_array_pt fuel mem array num_elements =
      { text := array_text mem array num_elements, returned := true } ∧
    print_array fuel mem array num_elements =
      { text := array_text mem array num_elements, returned := true } ∧
    (num_elements ≤ 0 → array_text mem array num_elements = "[]\n") := by
  simp only [INT_MAX] at hn
  simp only [SIZE_MOD] at harr hhi
  have h0 : ptr_add array 0 = array := by
    have := @ptr_add_eq array 0 (by omega) (by omega)
    omega
  by_cases h1 : num_elements ≥ 1
  · obtain ⟨m, hm⟩ : ∃ m : Nat, num_elements.toNat = m + 1 :=
      ⟨num_elements.toNat - 1, by omega⟩
    have hp : ptr_add array 1 = array + 4 := by
      have := @ptr_add_eq array 1 (by omega) (by omega)
      omega
    have hend : ptr_add (ptr_add (array + 4) num_elements) (-1) =
        (array + 4 * (m + 1) : Nat) := by
      unfold ptr_add wrapSize
      omega
    have hpt := print_array_pt_loop_spec mem (array + 4 * (m + 1)) (by omega)
      m fuel (array + 4) ("[" ++ toString (mem array)) (by intro h; omega)
      (by intro _; omega) (by omega)
    have har := print_array_loop_spec mem array num_elements hn hhi m fuel 1
      ("[" ++ toString (mem array)) (by decide) (by omega) (by omega)
    have e1 : (fun j => toString (mem (array + 4 + 4 * j))) =
        (fun j => toString (mem (array + 4 * (1 + j)))) := by
      funext j
      congr 2
      omega
    have e2 : (fun j => toString (mem (array + 4 * ((1 : Int).toNat + j)))) =
        (fun j => toString (mem (array + 4 * (1 + j)))) := by
      funext j
      rfl
    rw [e1] at hpt
    rw [e2] at har
    refine ⟨?_, ?_, fun h => absurd h (by omega)⟩
    · simp only [print_array_pt, if_pos h1, hp, hend, hpt, if_true]
      rw [array_text_succ mem array num_elements m hm]
    · simp only [print_array, if_pos h1, h0, har, if_true]
      rw [array_text_succ mem array num_elements m hm]
  · have hz : num_elements.toNat = 0 := by omega
    have htext : array_text mem array num_elements = "[]\n" := by
      unfold array_text
      rw [hz]
      rfl
    have hend : ((ptr_add (ptr_add array num_elements) (-1) : Nat) : Int) =
        (array : Int) + 4 * num_elements - 4 := by
      unfold ptr_add wrapSize
      omega
    have hpt := print_array_pt_loop_spec mem (ptr_add (ptr_add array num_elements) (-1))
      (by omega) 0 fuel array "[" (by intro _; omega) (by intro h; omega) (by omega)
    have har := print_array_loop_spec mem array num_elements hn hhi 0 fuel 1 "["
      (by decide) (by omega) (by omega)
    simp only [List.range_zero, List.map_nil, String.intercalate.go] at hpt har
    refine ⟨?_, ?_, fun _ => htext⟩
    · simp only [print_array_pt, if_neg h1, hpt, htext, if_true]
      rfl
    · simp only [print_array, if_neg h1, har, htext, if_true]
      rfl

/-- C15 at the calls `print_array(array, 10)` and `print_array_pt(array, 10)`
of `main`. -/
theorem print_array_pt_eq_print_array_witness :
    array_text main_array_mem 4096 10 = "[0, 1, 2, 3, 4, 5, 6, 7, 8, 9]\n" ∧
    print_array_pt 11 main_array_mem 4096 10 =
      { text := array_text main_array_mem 4096 10, returned := true } ∧
    print_array 11 main_array_mem 4096 10 =
      { text := array_text main_array_mem 4096 10, returned := true } :=
  ⟨by decide,
    (print_array_pt_eq_print_array 11 main_array_mem 4096 10 (by decide) (by decide)
      (by decide) (by decide) (by decide)).1,
    (print_array_pt_eq_print_array 11 main_array_mem 4096 10 (by decide) (by decide)
      (by decide) (by decide) (by decide)).2.1⟩

end PointersUnions
